import Mathlib

/-!
Verification of the Hearings AI core logic, shallowly embedded from the Python
sources (`src/api/src/auth/__init__.py`, `src/api/src/search/service.py`,
`src/scripts/ingest-documents.py`, `src/api/src/models.py`).

Embedding conventions:
- Python `str` is embedded as `String` in the auth layer and as `List Char`
  in the text-processing layer (chunking, citation extraction, snippets),
  where character-level reasoning is needed.
- Python `Optional[str]` becomes `Option String`; Python truthiness of an
  optional string (`if s:`) is "present and non-empty".
- The tokenizer (tiktoken `cl100k_base`) is an injected parameter
  `tok : List Char → Nat`, following the spec ("The tokenizer is an injected,
  opaque oracle; the Chunker has no numeric dependency on how tokens are
  defined, making it testable with a trivial word-count stand-in").
- Fallible code (dict lookups that can raise `KeyError`, HTTP 401) returns
  `Except AuthError`.
-/

namespace HearingsAI

/-! ### Data model (src/api/src/models.py) -/

inductive ConfidentialityLevel where
  | public
  | protected_a
  | confidential
deriving DecidableEq, Repr

inductive PartyRole where
  | applicant
  | intervener
  | staff
deriving DecidableEq, Repr

structure Party where
  name : String
  role : PartyRole
  ba_code : Option String := none
deriving DecidableEq, Repr

structure UserClaims where
  oid : String
  name : String
  email : String
  roles : List String := []
  party_affiliation : Option String := none
  ba_code : Option String := none
deriving DecidableEq, Repr

/-- The fields of `DocumentMetadata` that the access-control logic reads
(`can_access_document` only inspects `confidentiality_level` and `parties`). -/
structure DocumentMetadata where
  confidentiality_level : ConfidentialityLevel := .public
  parties : List Party := []
deriving DecidableEq, Repr

/-! ### Authorization (src/api/src/auth/__init__.py) -/

/-- Python truthiness of an `Optional[str]` value, as in
`if user_claims.party_affiliation:` — false for `None` and for `""`. -/
def truthyStr : Option String → Bool
  | none => false
  | some s => s ≠ ""

/-- `can_access_document` (auth/__init__.py, lines 103-133). -/
def can_access_document (user_claims : UserClaims) (document : DocumentMetadata) : Bool :=
  let level := document.confidentiality_level
  if level = .public then
    true
  else if level = .protected_a then
    -- Staff and Panel can see all Protected A
    if user_claims.roles.contains "Staff" || user_claims.roles.contains "Hearing_Panel" then
      true
    else
      -- Interveners can see their own party's protected documents
      match user_claims.party_affiliation with
      | some aff =>
        if aff ≠ "" then
          let party_names := document.parties.map Party.name
          party_names.contains aff
        else false
      | none => false
  else if level = .confidential then
    -- Only Hearing Panel can access confidential documents
    user_claims.roles.contains "Hearing_Panel"
  else
    false

/-- Python `"sep".join(l)`. -/
def jnStr (sep : String) : List String → String
  | [] => ""
  | [a] => a
  | a :: rest => a ++ sep ++ jnStr sep rest

/-- `build_search_filter` (auth/__init__.py, lines 136-161), producing the
OData filter string exactly as the source builds it (`\x27` is the ASCII
single-quote character appearing in the Python f-strings). -/
def build_search_filter (user_claims : UserClaims) : Option String :=
  let filters : List String :=
    -- Confidential documents only visible to Hearing Panel
    (if user_claims.roles.contains "Hearing_Panel" = false then
        ["confidentialityLevel ne \x27confidential\x27"]
      else [])
    -- Protected A visible to Staff, Panel, or own-party
    ++ (if user_claims.roles.contains "Staff" = false
           ∧ user_claims.roles.contains "Hearing_Panel" = false then
          match user_claims.party_affiliation with
          | some aff =>
            if aff ≠ "" then
              -- Can see public OR own party's protected documents
              ["(confidentialityLevel eq \x27public\x27 or parties/any(p: p eq \x27"
                ++ aff ++ "\x27))"]
            else
              -- Public users see only public documents
              ["confidentialityLevel eq \x27public\x27"]
          | none => ["confidentialityLevel eq \x27public\x27"]
        else [])
  match filters with
  | [] => none
  | fs => some (jnStr " and " fs)

/-- The three clause shapes `build_search_filter` can emit, as a small
expression tree (the spec's recommended internal form) whose rendering
reproduces the strings of `build_search_filter` exactly. -/
inductive FilterClause where
  | neConfidential
  | publicOnly
  | publicOrParty (aff : String)
deriving DecidableEq, Repr

def FilterClause.render : FilterClause → String
  | .neConfidential => "confidentialityLevel ne \x27confidential\x27"
  | .publicOnly => "confidentialityLevel eq \x27public\x27"
  | .publicOrParty aff =>
      "(confidentialityLevel eq \x27public\x27 or parties/any(p: p eq \x27" ++ aff ++ "\x27))"

/-- The clause list underlying `build_search_filter`, with the same control
flow as the source. -/
def filterClauses (user_claims : UserClaims) : List FilterClause :=
  (if user_claims.roles.contains "Hearing_Panel" = false then
      [FilterClause.neConfidential]
    else [])
  ++ (if user_claims.roles.contains "Staff" = false
         ∧ user_claims.roles.contains "Hearing_Panel" = false then
        match user_claims.party_affiliation with
        | some aff =>
          if aff ≠ "" then [FilterClause.publicOrParty aff]
          else [FilterClause.publicOnly]
        | none => [FilterClause.publicOnly]
      else [])

/-- Azure AI Search semantics of one OData clause, over a document's
`confidentialityLevel` field and `parties` collection. -/
def FilterClause.eval : FilterClause → ConfidentialityLevel → List String → Bool
  | .neConfidential, lvl, _ => decide (lvl ≠ .confidential)
  | .publicOnly, lvl, _ => decide (lvl = .public)
  | .publicOrParty aff, lvl, party_names => decide (lvl = .public) || party_names.contains aff

/-- A filter is the conjunction of its clauses; the empty clause list (the
`None` filter) is the always-true predicate. -/
def evalFilterClauses (cls : List FilterClause) (lvl : ConfidentialityLevel)
    (party_names : List String) : Bool :=
  cls.all (fun c => c.eval lvl party_names)

/-- Rendering of the clause list the way `build_search_filter` renders its
string list: `" and ".join(filters) if filters else None`. -/
def renderFilterClauses (cls : List FilterClause) : Option String :=
  match cls.map FilterClause.render with
  | [] => none
  | fs => some (jnStr " and " fs)

/-- `DEMO_USERS` (auth/__init__.py, lines 28-61): an association list standing
for the Python dict (keys in insertion order). -/
def DEMO_USERS : List (String × UserClaims) :=
  [("Hearing_Panel",
    { oid := "demo-panel-001", name := "Commissioner Demo", email := "panel@aer.ca",
      roles := ["Hearing_Panel"], party_affiliation := none, ba_code := none }),
   ("Staff",
    { oid := "demo-staff-001", name := "Staff Demo", email := "staff@example.com",
      roles := ["Staff"], party_affiliation := none, ba_code := none }),
   ("Intervener",
    { oid := "demo-intervener-001", name := "Intervener Demo", email := "intervener@example.com",
      roles := ["Intervener"],
      party_affiliation := some "Crowsnest Pass Residents Association", ba_code := none }),
   ("Public",
    { oid := "demo-public-001", name := "Public User", email := "public@example.com",
      roles := [], party_affiliation := none, ba_code := none })]

/-- Dict membership / item access for `DEMO_USERS`. -/
def demoUserLookup (k : String) : Option UserClaims :=
  (DEMO_USERS.find? (fun p => p.1 == k)).map Prod.snd

inductive AuthError where
  | keyError (key : String)
  | httpError (statusCode : Nat) (code : String)
deriving DecidableEq, Repr

/-- The request-scoped inputs `get_current_user` reads: the `X-Demo-Role`
header, the `DEMO_ROLE` and `ENVIRONMENT` environment variables, middleware
state, and optional bearer credentials. -/
structure AuthRequest where
  x_demo_role : Option String := none
  demo_role_env : Option String := none
  environment_env : Option String := none
  state_user_claims : Option UserClaims := none
  credentials : Option String := none

/-- `if x_demo_role and x_demo_role in DEMO_USERS: return DEMO_USERS[x_demo_role]`
— yields the demo user exactly when the header is truthy and a dict key. -/
def demoHeaderUser (req : AuthRequest) : Option UserClaims :=
  match req.x_demo_role with
  | some s => if s ≠ "" then demoUserLookup s else none
  | none => none

/-- Same for `os.environ.get("DEMO_ROLE")`. -/
def demoEnvUser (req : AuthRequest) : Option UserClaims :=
  match req.demo_role_env with
  | some s => if s ≠ "" then demoUserLookup s else none
  | none => none

/-- `get_current_user` (auth/__init__.py, lines 64-100). Python dict access
`DEMO_USERS["AER_Staff"]` is modeled as lookup-or-`KeyError`. -/
def get_current_user (req : AuthRequest) : Except AuthError UserClaims :=
  -- Check for demo mode via header
  match demoHeaderUser req with
  | some u => .ok u
  | none =>
  -- Check for demo mode via environment (for development)
  match demoEnvUser req with
  | some u => .ok u
  | none =>
  -- Check request state (set by middleware)
  match req.state_user_claims with
  | some u => .ok u
  | none =>
  -- If no auth provided and not in demo mode, default to Staff for dev
  if req.environment_env.getD "development" = "development" then
    match demoUserLookup "AER_Staff" with
    | some u => .ok u
    | none => .error (.keyError "AER_Staff")
  else
    -- Production: require valid credentials
    match req.credentials with
    | none => .error (.httpError 401 "AUTH_001")
    | some _ =>
      -- TODO in source: actual JWT validation; for now, return staff user
      match demoUserLookup "AER_Staff" with
      | some u => .ok u
      | none => .error (.keyError "AER_Staff")

/-! ### Character-level text machinery

Python `str` values in the ingestion/search code are embedded as `List Char`.
`chars` converts a Lean string literal to this representation. -/

def chars (s : String) : List Char := s.data

/-- The whitespace class (`\s`, `str.strip`, `str.split` boundaries) over the
characters these documents use. -/
def isWS (c : Char) : Bool := c.isWhitespace

/-- Accumulator-passing scanner underlying `words` (structurally recursive so
that concrete runs reduce in the kernel); `cur` is the reversed pending
non-whitespace run. -/
def wordsAux : List Char → List Char → List (List Char)
  | [], cur => if cur = [] then [] else [cur.reverse]
  | c :: t, cur =>
    if isWS c then
      if cur = [] then wordsAux t [] else cur.reverse :: wordsAux t []
    else wordsAux t (c :: cur)

/-- Whitespace-normalized view of a text: its maximal non-whitespace runs, in
order.  Two texts are "equal modulo whitespace normalization" iff their `words`
agree. -/
def words (s : List Char) : List (List Char) := wordsAux s []

/-- Python `s.strip()`. -/
def pyStrip (s : List Char) : List Char :=
  ((s.dropWhile isWS).reverse.dropWhile isWS).reverse

/-- Python `"sep".join(pieces)` at character level. -/
def joinSep (sep : List Char) : List (List Char) → List Char
  | [] => []
  | [a] => a
  | a :: rest => a ++ sep ++ joinSep sep rest

/-- Python `l[-2:]`. -/
def lastTwo (l : List (List Char)) : List (List Char) := l.drop (l.length - 2)

/-- Index of the last `'\n'` inside the leading whitespace run of the input
(the position the backtracking `\s*` of `\n\s*\n` settles on). -/
def lastNLIdx : List Char → Option Nat
  | [] => none
  | c :: t =>
    if isWS c then
      match lastNLIdx t with
      | some j => some (j + 1)
      | none => if c = '\n' then some 0 else none
    else none

/-- `re.split(r'\n\s*\n', text)`: scan left to right; at each position a
blank-line separator matches iff the position holds `'\n'` and the following
whitespace run contains another `'\n'`; the greedy match ends at the last such
`'\n'`.  The scanner is structurally recursive: `skip` counts separator
characters still to be consumed after a match. -/
def splitParasAux : List Char → Nat → List Char → List (List Char)
  | [], _, cur => [cur.reverse]
  | _ :: t, skip + 1, cur => splitParasAux t skip cur
  | c :: t, 0, cur =>
    if c = '\n' then
      match lastNLIdx t with
      | some j => cur.reverse :: splitParasAux t (j + 1) []
      | none => splitParasAux t 0 (c :: cur)
    else splitParasAux t 0 (c :: cur)

def splitParas (s : List Char) : List (List Char) := splitParasAux s 0 []

/-- Sentence-terminal punctuation, the `[.!?]` lookbehind class. -/
def isSentEnd (c : Char) : Bool := c = '.' || c = '!' || c = '?'

/-- `re.split(r'(?<=[.!?])\s+', para)`: a separator matches at a position iff
the previous character is sentence-terminal punctuation and the position
starts a (maximal, greedy) whitespace run.  `prev` threads the look-behind
character; `skip` counts separator characters still to be consumed after a
match (they are all whitespace, so no further separator can begin inside
them). -/
def splitSentsAux : Char → List Char → Nat → List Char → List (List Char)
  | _, [], _, cur => [cur.reverse]
  | _, c :: t, skip + 1, cur => splitSentsAux c t skip cur
  | prev, c :: t, 0, cur =>
    if isSentEnd prev ∧ isWS c then
      cur.reverse :: splitSentsAux c t (t.takeWhile isWS).length []
    else
      splitSentsAux c t 0 (c :: cur)

def splitSents (s : List Char) : List (List Char) := splitSentsAux ' ' s 0 []

/-! ### Citation pattern registry (ingest-documents.py, lines 76-105)

Each Python regex is compiled by hand into a matcher
`List Char → Option (List Char)` returning the rest of the input after a
match at the current position.  All quantifier junctions in these patterns
are between disjoint character classes, so greedy matching without
backtracking is exact; `0?\d+` spans exactly the maximal digit run, the same
as `\d+`. -/

/-- Case-insensitive literal (the patterns are compiled with `re.IGNORECASE`). -/
def matchLitCI : List Char → List Char → Option (List Char)
  | [], s => some s
  | c :: lt, d :: st => if c.toLower = d.toLower then matchLitCI lt st else none
  | _ :: _, [] => none

/-- `\s+` (greedy). -/
def matchWSPlus : List Char → Option (List Char)
  | c :: t => if isWS c then some (t.dropWhile isWS) else none
  | [] => none

/-- `\s*` (greedy). -/
def matchWSStar (s : List Char) : Option (List Char) := some (s.dropWhile isWS)

/-- `\.?` (greedy; consuming the dot never loses a match here since the next
element is `\s*\d+` and `.` is neither whitespace nor a digit). -/
def matchDotOpt : List Char → Option (List Char)
  | '.' :: t => some t
  | s => some s

/-- `\d+` (greedy). -/
def matchDigitsPlus : List Char → Option (List Char)
  | c :: t => if c.isDigit then some (t.dropWhile Char.isDigit) else none
  | [] => none

/-- `[\d\.]+` (greedy). -/
def matchDigitsDotsPlus : List Char → Option (List Char)
  | c :: t =>
    if c.isDigit || c = '.' then some (t.dropWhile (fun d => d.isDigit || d = '.'))
    else none
  | [] => none

/-- The shared tail `s\.?\s*\d+` of the legislation patterns. -/
def patSection (s : List Char) : Option (List Char) :=
  ((((matchLitCI (chars "s") s).bind matchDotOpt).bind matchWSStar).bind matchDigitsPlus)

def patREDA (s : List Char) : Option (List Char) :=
  ((matchLitCI (chars "REDA") s).bind matchWSPlus).bind patSection

def patEPEA (s : List Char) : Option (List Char) :=
  ((matchLitCI (chars "EPEA") s).bind matchWSPlus).bind patSection

def patOGCA (s : List Char) : Option (List Char) :=
  ((matchLitCI (chars "OGCA") s).bind matchWSPlus).bind patSection

def patPipelineAct (s : List Char) : Option (List Char) :=
  ((((matchLitCI (chars "Pipeline") s).bind matchWSPlus).bind
    (matchLitCI (chars "Act"))).bind matchWSPlus).bind patSection

def patWaterAct (s : List Char) : Option (List Char) :=
  ((((matchLitCI (chars "Water") s).bind matchWSPlus).bind
    (matchLitCI (chars "Act"))).bind matchWSPlus).bind patSection

def patPublicLandsAct (s : List Char) : Option (List Char) :=
  ((((((matchLitCI (chars "Public") s).bind matchWSPlus).bind
    (matchLitCI (chars "Lands"))).bind matchWSPlus).bind
    (matchLitCI (chars "Act"))).bind matchWSPlus).bind patSection

/-- `Directive\s+0?\d+`. -/
def patDirective (s : List Char) : Option (List Char) :=
  ((matchLitCI (chars "Directive") s).bind matchWSPlus).bind matchDigitsPlus

/-- `Directive\s+0?\d+\s+s\.?\s*[\d\.]+`. -/
def patDirectiveSection (s : List Char) : Option (List Char) :=
  ((((((matchLitCI (chars "Directive") s).bind matchWSPlus).bind
    matchDigitsPlus).bind matchWSPlus).bind
    (matchLitCI (chars "s"))).bind matchDotOpt).bind
    (fun r => (matchWSStar r).bind matchDigitsDotsPlus)

/-- `re.findall`: leftmost, non-overlapping scan returning the matched
substrings.  Fuel-indexed; `fuel = length + 1` suffices since every step
advances at least one character. -/
def findallAux (pat : List Char → Option (List Char)) : Nat → List Char → List (List Char)
  | 0, _ => []
  | _, [] => []
  | fuel + 1, c :: t =>
    match pat (c :: t) with
    | some rest =>
      if rest.length < (c :: t).length then
        ((c :: t).take ((c :: t).length - rest.length)) :: findallAux pat fuel rest
      else
        -- unreachable for the patterns used here: they consume input on success
        findallAux pat fuel t
    | none => findallAux pat fuel t

def findall (pat : List Char → Option (List Char)) (s : List Char) : List (List Char) :=
  findallAux pat (s.length + 1) s

def citationPatterns : List (List Char → Option (List Char)) :=
  [patREDA, patEPEA, patOGCA, patPipelineAct, patWaterAct, patPublicLandsAct,
   patDirective, patDirectiveSection]

/-- `extract_regulatory_citations` (ingest-documents.py, lines 81-105).
The Python function accumulates into a `set` and returns `list(citations)`
with unspecified order; the embedding returns the first-scan order
de-duplicated, and claims about it are stated at the level of the underlying
set. -/
def extract_regulatory_citations (text : List Char) : List (List Char) :=
  (citationPatterns.foldl (fun acc p => acc ++ findall p text) []).dedup

/-- One match of `\[(\d+)\]` at the current position, returning the captured
digit group and the rest. -/
def paraNumMatch : List Char → Option (List Char × List Char)
  | '[' :: t =>
    let ds := t.takeWhile Char.isDigit
    if ds ≠ [] then
      match t.drop ds.length with
      | ']' :: rest => some (ds, rest)
      | _ => none
    else none
  | _ => none

def paraNumsAux : Nat → List Char → List (List Char)
  | 0, _ => []
  | _, [] => []
  | fuel + 1, c :: t =>
    match paraNumMatch (c :: t) with
    | some (ds, rest) => ds :: paraNumsAux fuel rest
    | none => paraNumsAux fuel t

/-- `extract_paragraph_numbers` (ingest-documents.py, lines 76-78):
`re.findall(r'\[(\d+)\]', text)` — the bracketed numbers, in document order. -/
def extract_paragraph_numbers (text : List Char) : List (List Char) :=
  paraNumsAux (text.length + 1) text

/-! ### Snippet construction (src/api/src/search/service.py, lines 57-77) -/

/-- Python `hay.rfind(pat)`: the largest index at which `pat` occurs as a
substring, `none` standing for Python's `-1`. -/
def rfindIdxAux (hay pat : List Char) : Nat → Option Nat
  | 0 => if pat.isPrefixOf hay then some 0 else none
  | i + 1 =>
    if pat.isPrefixOf (hay.drop (i + 1)) then some (i + 1) else rfindIdxAux hay pat i

def rfindIdx (hay pat : List Char) : Option Nat := rfindIdxAux hay pat hay.length

/-- `highlight_snippet` (search/service.py, lines 57-77). -/
def highlight_snippet (content : List Char) (max_length : Nat := 300) : List Char :=
  let content := pyStrip content
  if content.length ≤ max_length then content
  else
    -- Try to end at a sentence boundary
    let truncated := content.take max_length
    let sentenceCut : Option (List Char) :=
      match rfindIdx truncated (chars ". ") with
      | some last_period =>
        if max_length / 2 < last_period then some (truncated.take (last_period + 1))
        else none
      | none => none
    match sentenceCut with
    | some r => r
    | none =>
      -- Fall back to word boundary
      match rfindIdx truncated (chars " ") with
      | some last_space =>
        if 0 < last_space then truncated.take last_space ++ chars "..."
        else truncated ++ chars "..."
      | none => truncated ++ chars "..."

/-! ### Chunker (ingest-documents.py, lines 108-206)

`chunk_text` is a fold over the pages' paragraphs with state
`(chunks, current_chunk, current_tokens, current_page, chunk_id)`.
The tokenizer `tok` stands for `len(TOKENIZER.encode(·))`. -/

/-- One extracted page, as produced by `extract_text_from_pdf`. -/
structure Page where
  page_number : Nat
  text : List Char
deriving DecidableEq, Repr

/-- One chunk dict as built by `chunk_text`. -/
structure Chunk where
  chunk_id : Nat
  content : List Char
  page_number : Nat
  paragraph_number : Option (List Char)
  regulatory_citations : List (List Char)
deriving DecidableEq, Repr

structure ChunkState where
  chunks : List Chunk
  current_chunk : List (List Char)
  current_tokens : Nat
  current_page : Nat
  chunk_id : Nat
deriving Repr

/-- The chunk-emission block that `chunk_text` repeats at each flush site
(`sep` is the join: `"\n\n"` in the paragraph paths, `" "` in the sentence
path). -/
def mkChunk (sep : List Char) (st : ChunkState) : Chunk :=
  let text := joinSep sep st.current_chunk
  { chunk_id := st.chunk_id
    content := text
    page_number := st.current_page
    paragraph_number := (extract_paragraph_numbers text).head?
    regulatory_citations := extract_regulatory_citations text }

/-- Body of the inner `for sent in sentences` loop. -/
def processSent (tok : List Char → Nat) (chunk_size : Nat) (page_num : Nat)
    (st : ChunkState) (sent : List Char) : ChunkState :=
  let sent_tokens := tok sent
  let st :=
    if chunk_size < st.current_tokens + sent_tokens ∧ st.current_chunk ≠ [] then
      let c := mkChunk (chars " ") st
      -- Keep overlap: the last two sentence units, or nothing
      let overlap_text :=
        if 2 ≤ st.current_chunk.length then joinSep (chars " ") (lastTwo st.current_chunk)
        else []
      { chunks := st.chunks ++ [c]
        current_chunk := if overlap_text ≠ [] then [overlap_text] else []
        current_tokens := if overlap_text ≠ [] then tok overlap_text else 0
        current_page := st.current_page
        chunk_id := st.chunk_id + 1 }
    else st
  { st with
    current_chunk := st.current_chunk ++ [sent]
    current_tokens := st.current_tokens + sent_tokens
    current_page := page_num }

/-- Body of the `for para in paragraphs` loop (strip and blank-skip included). -/
def processPara (tok : List Char → Nat) (chunk_size : Nat)
    (st : ChunkState) (pgPara : Nat × List Char) : ChunkState :=
  let page_num := pgPara.1
  let para := pyStrip pgPara.2
  if para = [] then st
  else
    let para_tokens := tok para
    if chunk_size < para_tokens then
      -- Oversized paragraph: first, save current chunk if any
      let st :=
        if st.current_chunk ≠ [] then
          { chunks := st.chunks ++ [mkChunk (chars "\n\n") st]
            current_chunk := []
            current_tokens := 0
            current_page := st.current_page
            chunk_id := st.chunk_id + 1 }
        else st
      -- Split long paragraph by sentences
      (splitSents para).foldl (processSent tok chunk_size page_num) st
    else if chunk_size < st.current_tokens + para_tokens then
      -- Save current chunk, start new chunk with overlap
      let c := mkChunk (chars "\n\n") st
      let overlap_paragraphs :=
        match st.current_chunk.getLast? with
        | some u => [u]
        | none => []
      let newCurrent := overlap_paragraphs ++ [para]
      { chunks := st.chunks ++ [c]
        current_chunk := newCurrent
        current_tokens := (newCurrent.map tok).sum
        current_page := page_num
        chunk_id := st.chunk_id + 1 }
    else
      { st with
        current_chunk := st.current_chunk ++ [para]
        current_tokens := st.current_tokens + para_tokens
        current_page := page_num }

def processPage (tok : List Char → Nat) (chunk_size : Nat)
    (st : ChunkState) (page : Page) : ChunkState :=
  (splitParas page.text).foldl (fun s para => processPara tok chunk_size s (page.page_number, para)) st

def initChunkState : ChunkState :=
  { chunks := [], current_chunk := [], current_tokens := 0, current_page := 1, chunk_id := 0 }

/-- `chunk_text(pages, chunk_size, overlap)` — the `overlap` parameter is
accepted but never read by the body, exactly as in the source. -/
def chunk_text (tok : List Char → Nat) (pages : List Page)
    (chunk_size : Nat) (overlap : Nat) : List Chunk :=
  let _ := overlap
  let st := pages.foldl (processPage tok chunk_size) initChunkState
  -- Don't forget the last chunk
  if st.current_chunk ≠ [] then st.chunks ++ [mkChunk (chars "\n\n") st]
  else st.chunks

/-! ### Annotated chunker

`chunk_text_ann` runs the same computation while additionally recording, for
each chunk, its unit list, how many leading units were carried over as
overlap from the previous chunk, and which flush site emitted it.  The
`erase`-image of the annotated run is proved equal to `chunk_text`
(`chunk_text_eq_erase_ann` below), so the annotations are ghost data. -/

inductive FlushKind where
  /-- line-133 flush: pending chunk saved before sentence-splitting an
  oversized paragraph (no overlap is seeded). -/
  | preSplit
  /-- line-152 flush: adding a sentence would exceed the budget (seeds the
  last two sentence units as overlap when at least two are present). -/
  | sentOverflow
  /-- line-173 flush: adding a paragraph would exceed the budget (seeds the
  last paragraph unit as overlap). -/
  | paraOverflow
  /-- line-196 flush of the final remainder. -/
  | finalFlush
deriving DecidableEq, Repr

/-- The join separator each flush site uses. -/
def sepFor : FlushKind → List Char
  | .sentOverflow => chars " "
  | _ => chars "\n\n"

structure AnnChunk where
  chunk_id : Nat
  content : List Char
  page_number : Nat
  paragraph_number : Option (List Char)
  regulatory_citations : List (List Char)
  /-- ghost: the unit (paragraph/sentence) list joined into `content`. -/
  units : List (List Char)
  /-- ghost: how many leading units of `units` were carried from the
  previous chunk as overlap. -/
  carriedCount : Nat
  /-- ghost: which flush site emitted this chunk. -/
  flushKind : FlushKind
deriving DecidableEq, Repr

structure AnnState where
  chunks : List AnnChunk
  current_chunk : List (List Char)
  /-- ghost: how many leading units of `current_chunk` are carried overlap. -/
  carriedCount : Nat
  current_tokens : Nat
  current_page : Nat
  chunk_id : Nat
deriving Repr

def mkAnnChunk (sep : List Char) (kind : FlushKind) (st : AnnState) : AnnChunk :=
  let text := joinSep sep st.current_chunk
  { chunk_id := st.chunk_id
    content := text
    page_number := st.current_page
    paragraph_number := (extract_paragraph_numbers text).head?
    regulatory_citations := extract_regulatory_citations text
    units := st.current_chunk
    carriedCount := st.carriedCount
    flushKind := kind }

def annProcessSent (tok : List Char → Nat) (chunk_size : Nat) (page_num : Nat)
    (st : AnnState) (sent : List Char) : AnnState :=
  let sent_tokens := tok sent
  let st :=
    if chunk_size < st.current_tokens + sent_tokens ∧ st.current_chunk ≠ [] then
      let c := mkAnnChunk (chars " ") .sentOverflow st
      let overlap_text :=
        if 2 ≤ st.current_chunk.length then joinSep (chars " ") (lastTwo st.current_chunk)
        else []
      let seed := if overlap_text ≠ [] then [overlap_text] else []
      { chunks := st.chunks ++ [c]
        current_chunk := seed
        carriedCount := seed.length
        current_tokens := if overlap_text ≠ [] then tok overlap_text else 0
        current_page := st.current_page
        chunk_id := st.chunk_id + 1 }
    else st
  { st with
    current_chunk := st.current_chunk ++ [sent]
    current_tokens := st.current_tokens + sent_tokens
    current_page := page_num }

def annProcessPara (tok : List Char → Nat) (chunk_size : Nat)
    (st : AnnState) (pgPara : Nat × List Char) : AnnState :=
  let page_num := pgPara.1
  let para := pyStrip pgPara.2
  if para = [] then st
  else
    let para_tokens := tok para
    if chunk_size < para_tokens then
      let st :=
        if st.current_chunk ≠ [] then
          { chunks := st.chunks ++ [mkAnnChunk (chars "\n\n") .preSplit st]
            current_chunk := []
            carriedCount := 0
            current_tokens := 0
            current_page := st.current_page
            chunk_id := st.chunk_id + 1 }
        else st
      (splitSents para).foldl (annProcessSent tok chunk_size page_num) st
    else if chunk_size < st.current_tokens + para_tokens then
      let c := mkAnnChunk (chars "\n\n") .paraOverflow st
      let overlap_paragraphs :=
        match st.current_chunk.getLast? with
        | some u => [u]
        | none => []
      let newCurrent := overlap_paragraphs ++ [para]
      { chunks := st.chunks ++ [c]
        current_chunk := newCurrent
        carriedCount := overlap_paragraphs.length
        current_tokens := (newCurrent.map tok).sum
        current_page := page_num
        chunk_id := st.chunk_id + 1 }
    else
      { st with
        current_chunk := st.current_chunk ++ [para]
        current_tokens := st.current_tokens + para_tokens
        current_page := page_num }

def annProcessPage (tok : List Char → Nat) (chunk_size : Nat)
    (st : AnnState) (page : Page) : AnnState :=
  (splitParas page.text).foldl
    (fun s para => annProcessPara tok chunk_size s (page.page_number, para)) st

def initAnnState : AnnState :=
  { chunks := [], current_chunk := [], carriedCount := 0, current_tokens := 0,
    current_page := 1, chunk_id := 0 }

def chunk_text_ann (tok : List Char → Nat) (pages : List Page)
    (chunk_size : Nat) (overlap : Nat) : List AnnChunk :=
  let _ := overlap
  let st := pages.foldl (annProcessPage tok chunk_size) initAnnState
  if st.current_chunk ≠ [] then st.chunks ++ [mkAnnChunk (chars "\n\n") .finalFlush st]
  else st.chunks

/-- Forget the ghost fields of an annotated chunk. -/
def eraseAnn (c : AnnChunk) : Chunk :=
  { chunk_id := c.chunk_id
    content := c.content
    page_number := c.page_number
    paragraph_number := c.paragraph_number
    regulatory_citations := c.regulatory_citations }

/-- Forget the ghost fields of an annotated chunker state. -/
def eraseAnnState (st : AnnState) : ChunkState :=
  { chunks := st.chunks.map eraseAnn
    current_chunk := st.current_chunk
    current_tokens := st.current_tokens
    current_page := st.current_page
    chunk_id := st.chunk_id }

/-- The word-count tokenizer, the spec's "trivial word-count stand-in" used
for concrete runs. -/
def wcTok (s : List Char) : Nat := (words s).length

/-- Sum of the per-unit token counts — the quantity `current_tokens`
tracks. -/
def sumTok (tok : List Char → Nat) (l : List (List Char)) : Nat := (l.map tok).sum

/-- The whitespace-normalized content of a unit list. -/
def flatWords (us : List (List Char)) : List (List Char) := (us.map words).flatten

/-- The overlap units an annotated chunk carried from its predecessor. -/
def AnnChunk.carried (c : AnnChunk) : List (List Char) := c.units.take c.carriedCount

/-- The units of an annotated chunk that are not carried overlap. -/
def AnnChunk.fresh (c : AnnChunk) : List (List Char) := c.units.drop c.carriedCount

/-- Invariant of every emitted chunk: its content is the join of its units
with the flush site's separator; units are non-empty; at most one leading
unit is carried overlap; and the chunk is within budget unless it starts
with carried overlap or is a single (possibly oversized) unit. -/
structure ChunkInv (tok : List Char → Nat) (chunk_size : Nat) (c : AnnChunk) : Prop where
  content_eq : c.content = joinSep (sepFor c.flushKind) c.units
  units_ne : c.units ≠ []
  unit_ne : ∀ u ∈ c.units, u ≠ []
  cc_le_one : c.carriedCount ≤ 1
  cc_le_len : c.carriedCount ≤ c.units.length
  budget : 0 < c.carriedCount ∨ c.units.length ≤ 1 ∨ sumTok tok c.units ≤ chunk_size

/-- Relation between consecutive emitted chunks: if the later chunk carries
overlap, that overlap is a non-empty suffix of the earlier chunk's content;
and a paragraph-overflow flush, or a sentence-overflow flush of at least two
units, always seeds overlap into the next chunk. -/
def Adj (a b : AnnChunk) : Prop :=
  (0 < b.carriedCount → ∃ u, b.units.head? = some u ∧ u ≠ [] ∧ u <:+ a.content)
  ∧ (a.flushKind = .paraOverflow → 0 < b.carriedCount)
  ∧ (a.flushKind = .sentOverflow → 2 ≤ a.units.length → 0 < b.carriedCount)

/-- The chunker-state invariant maintained by every step of the fold. -/
structure StateInv (tok : List Char → Nat) (chunk_size : Nat) (s : AnnState) : Prop where
  tokens_eq : s.current_tokens = sumTok tok s.current_chunk
  cc_le_one : s.carriedCount ≤ 1
  cc_le_len : s.carriedCount ≤ s.current_chunk.length
  unit_ne : ∀ u ∈ s.current_chunk, u ≠ []
  budget : s.carriedCount = 1 ∨ s.current_chunk.length ≤ 1
      ∨ sumTok tok s.current_chunk ≤ chunk_size
  link : s.carriedCount = 1 → ∃ c, s.chunks.getLast? = some c ∧
      ∃ u, s.current_chunk.head? = some u ∧ u ≠ [] ∧ u <:+ c.content
  kindlink : ∀ c, s.chunks.getLast? = some c →
      (c.flushKind = .paraOverflow → s.carriedCount = 1) ∧
      (c.flushKind = .sentOverflow → 2 ≤ c.units.length → s.carriedCount = 1)
  chunksOK : ∀ c ∈ s.chunks, ChunkInv tok chunk_size c
  adj : s.chunks.Chain' Adj
  id_eq : s.chunk_id = s.chunks.length
  ids : s.chunks.map AnnChunk.chunk_id = List.range s.chunks.length

/-- The words accumulated outside overlap: the fresh units of the emitted
chunks followed by the pending fresh units. -/
def accWords (s : AnnState) : List (List Char) :=
  (s.chunks.map (fun c => flatWords c.fresh)).flatten
    ++ flatWords (s.current_chunk.drop s.carriedCount)

/-! ### Concrete fixtures for the spec's worked examples -/

def panelClaims : UserClaims :=
  { oid := "u-panel", name := "P", email := "p@x", roles := ["Hearing_Panel"] }

def staffClaims : UserClaims :=
  { oid := "u-staff", name := "S", email := "s@x", roles := ["Staff"] }

def publicClaims : UserClaims :=
  { oid := "u-pub", name := "Q", email := "q@x", roles := [] }

def emptyAffClaims : UserClaims :=
  { oid := "u-int", name := "I", email := "i@x", roles := [], party_affiliation := some "" }

def emptyNameDoc : DocumentMetadata :=
  { confidentiality_level := .protected_a, parties := [{ name := "", role := .intervener }] }

def protectedDoc : DocumentMetadata :=
  { confidentiality_level := .protected_a, parties := [] }

def confidentialDoc : DocumentMetadata :=
  { confidentiality_level := .confidential, parties := [] }

/-- The spec's citation example input. -/
def citeInput : List Char :=
  chars "Under REDA s. 34 and Directive 056 s. 2.1, the panel finds…"

/-! ## Lemmas -/

lemma contains_eq_decide_mem (l : List String) (a : String) : l.contains a = decide (a ∈ l) := by
  by_cases h : a ∈ l <;> simp [h]

lemma occurs_le_length {hay pat : List Char} (hne : pat ≠ []) {j : Nat}
    (h : pat <+: hay.drop j) : j ≤ hay.length := by
  by_contra hj
  push_neg at hj
  rw [List.drop_eq_nil_of_le (le_of_lt hj)] at h
  exact hne (List.prefix_nil.mp h)

lemma rfindIdxAux_some (hay pat : List Char) :
    ∀ n i, rfindIdxAux hay pat n = some i →
      i ≤ n ∧ pat <+: hay.drop i ∧ ∀ j, j ≤ n → pat <+: hay.drop j → j ≤ i := by
  intro n
  induction n with
  | zero =>
    intro i h
    simp only [rfindIdxAux] at h
    split at h
    · next hp =>
      cases h
      exact ⟨le_refl _, by simpa using List.isPrefixOf_iff_prefix.mp hp,
        fun j hj _ => hj⟩
    · cases h
  | succ k ih =>
    intro i h
    simp only [rfindIdxAux] at h
    split at h
    · next hp =>
      cases h
      exact ⟨le_refl _, List.isPrefixOf_iff_prefix.mp hp, fun j hj _ => hj⟩
    · next hp =>
      obtain ⟨h1, h2, h3⟩ := ih i h
      refine ⟨Nat.le_succ_of_le h1, h2, ?_⟩
      intro j hj hpre
      rcases Nat.lt_or_ge j (k + 1) with hlt | hge
      · exact h3 j (Nat.lt_succ_iff.mp hlt) hpre
      · have hje : j = k + 1 := le_antisymm hj hge
        subst hje
        exact absurd ( List.isPrefixOf_iff_prefix.mpr hpre) (by simpa using hp)

lemma rfindIdxAux_none (hay pat : List Char) :
    ∀ n, rfindIdxAux hay pat n = none → ∀ j, j ≤ n → ¬ pat <+: hay.drop j := by
  intro n
  induction n with
  | zero =>
    intro h j hj
    simp only [rfindIdxAux] at h
    split at h
    · cases h
    · next hp =>
      interval_cases j
      simpa [ List.isPrefixOf_iff_prefix] using hp
  | succ k ih =>
    intro h j hj
    simp only [rfindIdxAux] at h
    split at h
    · cases h
    · next hp =>
      rcases Nat.lt_or_ge j (k + 1) with hlt | hge
      · exact ih h j (Nat.lt_succ_iff.mp hlt)
      · have hje : j = k + 1 := le_antisymm hj hge
        subst hje
        simpa [ List.isPrefixOf_iff_prefix] using hp

lemma rfindIdx_some {hay pat : List Char} {i : Nat} (hne : pat ≠ [])
    (h : rfindIdx hay pat = some i) :
    pat <+: hay.drop i ∧ ∀ j, pat <+: hay.drop j → j ≤ i := by
  obtain ⟨_, h2, h3⟩ := rfindIdxAux_some hay pat hay.length i h
  exact ⟨h2, fun j hj => h3 j (occurs_le_length hne hj) hj⟩

lemma rfindIdx_none {hay pat : List Char} (hne : pat ≠ [])
    (h : rfindIdx hay pat = none) : ∀ j, ¬ pat <+: hay.drop j := by
  intro j hj
  exact rfindIdxAux_none hay pat hay.length h j (occurs_le_length hne hj) hj


lemma joinSep_cons (sep : List Char) (a : List Char) (t : List (List Char)) (h : t ≠ []) :
    joinSep sep (a :: t) = a ++ sep ++ joinSep sep t := by
  cases t with
  | nil => exact absurd rfl h
  | cons b r => rfl

lemma joinSep_append (sep : List Char) (a b : List (List Char)) (ha : a ≠ []) (hb : b ≠ []) :
    joinSep sep (a ++ b) = joinSep sep a ++ sep ++ joinSep sep b := by
  induction a with
  | nil => exact absurd rfl ha
  | cons x t ih =>
    cases t with
    | nil =>
      simp [joinSep_cons sep x b hb, joinSep]
    | cons y r =>
      have ht : y :: r ≠ [] := by simp
      have htb : (y :: r) ++ b ≠ [] := by simp
      rw [List.cons_append, joinSep_cons sep x _ htb, joinSep_cons sep x _ ht, ih ht]
      simp [List.append_assoc]

lemma head_prefix_joinSep (sep : List Char) (u : List Char) (t : List (List Char)) :
    u <+: joinSep sep (u :: t) := by
  cases t with
  | nil => simp [joinSep]
  | cons y r =>
    rw [joinSep_cons sep u _ (by simp)]
    exact ⟨sep ++ joinSep sep (y :: r), by simp⟩

lemma getLast_suffix_joinSep (sep : List Char) :
    ∀ (l : List (List Char)) (h : l ≠ []), l.getLast h <:+ joinSep sep l := by
  intro l
  induction l with
  | nil => intro h; exact absurd rfl h
  | cons x t ih =>
    intro h
    cases t with
    | nil => simp [joinSep]
    | cons y r =>
      rw [List.getLast_cons (by simp), joinSep_cons sep x _ (by simp)]
      exact (ih (by simp)).trans (List.suffix_append _ _)

lemma joinSep_lastTwo_suffix (sep : List Char) (l : List (List Char)) (h2 : 2 ≤ l.length) :
    joinSep sep (lastTwo l) <:+ joinSep sep l := by
  have hsplit : l = l.take (l.length - 2) ++ lastTwo l := by
    simp [lastTwo]
  rcases ht : l.take (l.length - 2) with _ | ⟨x, r⟩
  · conv_rhs => rw [hsplit, ht]
    simp
  · have hlt : lastTwo l ≠ [] := by
      simp [lastTwo]
      omega
    conv_rhs => rw [hsplit, ht]
    rw [joinSep_append sep _ _ (by simp) hlt]
    exact List.suffix_append _ _

lemma joinSep_ne_nil (sep : List Char) (l : List (List Char)) (hl : l ≠ [])
    (hall : ∀ u ∈ l, u ≠ []) : joinSep sep l ≠ [] := by
  cases l with
  | nil => exact absurd rfl hl
  | cons x t =>
    cases t with
    | nil => exact hall x (by simp)
    | cons y r =>
      rw [joinSep_cons sep x _ (by simp)]
      intro hcontra
      have := List.append_eq_nil.mp ((List.append_eq_nil.mp hcontra).1)
      exact hall x (by simp) this.1

lemma sumTok_append (tok : List Char → Nat) (a b : List (List Char)) :
    sumTok tok (a ++ b) = sumTok tok a + sumTok tok b := by
  simp [sumTok]

lemma tok_joinSep (tok : List Char → Nat) (sep : List Char)
    (hadd : ∀ a b, tok (a ++ sep ++ b) = tok a + tok b) :
    ∀ l : List (List Char), l ≠ [] → tok (joinSep sep l) = sumTok tok l := by
  intro l
  induction l with
  | nil => intro h; exact absurd rfl h
  | cons x t ih =>
    intro _
    cases t with
    | nil => simp [joinSep, sumTok]
    | cons y r =>
      rw [joinSep_cons sep x _ (by simp), hadd, ih (by simp)]
      simp [sumTok]


lemma words_nil : words [] = [] := rfl

lemma wordsAux_acc (l : List Char) :
    ∀ cur, cur ≠ [] →
      wordsAux l cur = (cur.reverse ++ l.takeWhile (fun d => !isWS d))
        :: wordsAux (l.dropWhile (fun d => !isWS d)) [] := by
  induction l with
  | nil =>
    intro cur h
    simp [wordsAux, h]
  | cons c t ih =>
    intro cur h
    by_cases hc : isWS c = true
    · rw [List.takeWhile_cons_of_neg (by simp [hc]), List.dropWhile_cons_of_neg (by simp [hc])]
      simp only [wordsAux, hc, if_true, if_neg h, List.append_nil]
    · rw [List.takeWhile_cons_of_pos (by simp [hc]), List.dropWhile_cons_of_pos (by simp [hc])]
      simp only [wordsAux, hc, if_false]
      rw [ih (c :: cur) (by simp)]
      simp

lemma words_ws_cons (c : Char) (l : List Char) (h : isWS c = true) :
    words (c :: l) = words l := by
  simp [words, wordsAux, h]

lemma words_nonws_cons (c : Char) (l : List Char) (h : isWS c = false) :
    words (c :: l) =
      (c :: l.takeWhile (fun d => !isWS d)) :: words (l.dropWhile (fun d => !isWS d)) := by
  unfold words
  simp only [wordsAux, h, if_false]
  rw [wordsAux_acc l [c] (by simp)]
  simp

lemma words_ws_start (w b : List Char) (hw : ∀ c ∈ w, isWS c = true) :
    words (w ++ b) = words b := by
  induction w with
  | nil => simp
  | cons c t ih =>
    rw [List.cons_append, words_ws_cons c _ (hw c (by simp))]
    exact ih (fun c hc => hw c (by simp [hc]))

lemma takeWhile_append_stop {p : Char → Bool} (l₁ l₂ : List Char)
    (h : l₁.dropWhile p ≠ []) :
    (l₁ ++ l₂).takeWhile p = l₁.takeWhile p
    ∧ (l₁ ++ l₂).dropWhile p = l₁.dropWhile p ++ l₂ := by
  induction l₁ with
  | nil => exact absurd rfl h
  | cons x t ih =>
    cases hx : p x with
    | true =>
      have ht : t.dropWhile p ≠ [] := by
        simpa [List.dropWhile_cons, hx] using h
      obtain ⟨h1, h2⟩ := ih ht
      constructor
      · simp [List.takeWhile_cons, hx, h1]
      · simp [List.dropWhile_cons, hx, h2]
    | false =>
      constructor
      · simp [List.takeWhile_cons, hx]
      · simp [List.dropWhile_cons, hx]

lemma words_append_ws (w : List Char) (hw : ∀ c ∈ w, isWS c = true) (hne : w ≠ []) :
    ∀ (a b : List Char), words (a ++ w ++ b) = words a ++ words b := by
  suffices hstrong : ∀ (n : Nat) (a : List Char), a.length ≤ n →
      ∀ b, words (a ++ w ++ b) = words a ++ words b by
    intro a b
    exact hstrong a.length a le_rfl b
  intro n
  induction n with
  | zero =>
    intro a ha b
    have haz : a = [] := List.length_eq_zero.mp (Nat.le_zero.mp ha)
    subst haz
    simp only [List.nil_append, words_nil]
    exact words_ws_start w b hw
  | succ n ih =>
    intro a ha b
    cases a with
    | nil =>
      simp only [List.nil_append, words_nil]
      exact words_ws_start w b hw
    | cons c cs =>
      have hlcs : cs.length ≤ n := by
        simp only [List.length_cons] at ha
        omega
      by_cases hc : isWS c = true
      · rw [List.cons_append, List.cons_append, words_ws_cons c _ hc, words_ws_cons c _ hc]
        exact ih cs hlcs b
      · have hcf : isWS c = false := by
          cases h : isWS c
          · rfl
          · exact absurd h hc
        obtain ⟨wh, wt, hwht⟩ : ∃ wh wt, w = wh :: wt := by
          cases w with
          | nil => exact absurd rfl hne
          | cons x y => exact ⟨x, y, rfl⟩
        have hwh : isWS wh = true := hw wh (by simp [hwht])
        have hlist : (c :: cs) ++ w ++ b = c :: (cs ++ (w ++ b)) := by simp
        rw [hlist, words_nonws_cons c _ hcf, words_nonws_cons c _ hcf]
        by_cases hall : ∀ d ∈ cs, (!isWS d) = true
        · have htake : (cs ++ (w ++ b)).takeWhile (fun d => !isWS d) = cs := by
            rw [List.takeWhile_append_of_pos hall, hwht, List.cons_append,
              List.takeWhile_cons_of_neg (by simp [hwh])]
            simp
          have hdrop : (cs ++ (w ++ b)).dropWhile (fun d => !isWS d) = w ++ b := by
            rw [List.dropWhile_append_of_pos hall, hwht, List.cons_append,
              List.dropWhile_cons_of_neg (by simp [hwh])]
          have htake2 : cs.takeWhile (fun d => !isWS d) = cs :=
            List.takeWhile_eq_self_iff.mpr hall
          have hdrop2 : cs.dropWhile (fun d => !isWS d) = [] :=
            List.dropWhile_eq_nil_iff.mpr hall
          rw [htake, hdrop, htake2, hdrop2, words_nil, words_ws_start w b hw]
          simp
        · have hdne : cs.dropWhile (fun d => !isWS d) ≠ [] := by
            intro hcontra
            exact hall (List.dropWhile_eq_nil_iff.mp hcontra)
          obtain ⟨ht1, ht2⟩ := takeWhile_append_stop cs (w ++ b) hdne
          have hdlen : (cs.dropWhile (fun d => !isWS d)).length ≤ n :=
            le_trans ((List.dropWhile_sublist _).length_le) hlcs
          rw [ht1, ht2, ← List.append_assoc, ih _ hdlen b]
          simp


lemma words_append_ws_right (a w : List Char) (hw : ∀ c ∈ w, isWS c = true) :
    words (a ++ w) = words a := by
  cases hww : w with
  | nil => simp
  | cons x t =>
    have := words_append_ws w (by simp [hww] at hw ⊢; exact hw) (by simp [hww]) a []
    rw [words_nil] at this
    simpa [hww] using this

lemma words_dropWhile_ws (l : List Char) : words (l.dropWhile isWS) = words l := by
  induction l with
  | nil => simp
  | cons c t ih =>
    cases hc : isWS c with
    | true => rw [List.dropWhile_cons_of_pos hc, ih, words_ws_cons c t hc]
    | false => rw [List.dropWhile_cons_of_neg (by simp [hc])]

lemma words_pyStrip (s : List Char) : words (pyStrip s) = words s := by
  unfold pyStrip
  set u := s.dropWhile isWS with hu
  have h1 : words u = words s := words_dropWhile_ws s
  have hsplit : u.reverse = u.reverse.takeWhile isWS ++ u.reverse.dropWhile isWS := by
    rw [List.takeWhile_append_dropWhile]
  have hu2 : u = (u.reverse.dropWhile isWS).reverse ++ (u.reverse.takeWhile isWS).reverse := by
    conv_lhs => rw [← List.reverse_reverse u, hsplit]
    rw [List.reverse_append]
  have hws : ∀ c ∈ (u.reverse.takeWhile isWS).reverse, isWS c = true := by
    intro c hc
    rw [List.mem_reverse] at hc
    exact List.mem_takeWhile_imp hc
  calc words ((u.reverse.dropWhile isWS).reverse)
      = words ((u.reverse.dropWhile isWS).reverse ++ (u.reverse.takeWhile isWS).reverse) :=
        (words_append_ws_right _ _ hws).symm
    _ = words u := by rw [← hu2]
    _ = words s := h1

lemma flatWords_append (a b : List (List Char)) :
    flatWords (a ++ b) = flatWords a ++ flatWords b := by
  simp [flatWords]

lemma words_joinSep (sep : List Char) (hsep : ∀ c ∈ sep, isWS c = true) (hne : sep ≠ []) :
    ∀ l : List (List Char), words (joinSep sep l) = flatWords l := by
  intro l
  induction l with
  | nil => simp [joinSep, flatWords, words_nil]
  | cons x t ih =>
    cases t with
    | nil => simp [joinSep, flatWords]
    | cons y r =>
      rw [joinSep_cons sep x _ (by simp), words_append_ws sep hsep hne x _, ih]
      simp [flatWords]


lemma lastNLIdx_lt (t : List Char) (j : Nat) (h : lastNLIdx t = some j) : j < t.length := by
  induction t generalizing j with
  | nil => simp [lastNLIdx] at h
  | cons c r ih =>
    simp only [lastNLIdx] at h
    by_cases hc : isWS c = true
    · rw [if_pos hc] at h
      rcases hr : lastNLIdx r with _ | j'
      · rw [hr] at h
        by_cases hnl : c = '\n'
        · rw [if_pos hnl] at h
          cases h
          simp
        · rw [if_neg hnl] at h
          cases h
      · rw [hr] at h
        cases h
        have := ih j' hr
        simp only [List.length_cons]
        omega
    · rw [if_neg hc] at h
      cases h

lemma lastNLIdx_ws (t : List Char) (j : Nat) (h : lastNLIdx t = some j) :
    ∀ c ∈ t.take (j + 1), isWS c = true := by
  induction t generalizing j with
  | nil => simp [lastNLIdx] at h
  | cons c r ih =>
    simp only [lastNLIdx] at h
    by_cases hc : isWS c = true
    · rw [if_pos hc] at h
      rcases hr : lastNLIdx r with _ | j'
      · rw [hr] at h
        by_cases hnl : c = '\n'
        · rw [if_pos hnl] at h
          cases h
          intro d hd
          simp only [List.take_succ_cons, List.take_zero] at hd
          rcases List.mem_cons.mp hd with rfl | hd
          · exact hc
          · simp at hd
        · rw [if_neg hnl] at h
          cases h
      · rw [hr] at h
        cases h
        intro d hd
        rw [List.take_succ_cons] at hd
        rcases List.mem_cons.mp hd with rfl | hd
        · exact hc
        · exact ih j' hr d hd
    · rw [if_neg hc] at h
      cases h

lemma splitParasAux_skip :
    ∀ (s : List Char) (k : Nat) (cur : List Char),
      splitParasAux s k cur = splitParasAux (s.drop k) 0 cur := by
  intro s
  induction s with
  | nil =>
    intro k cur
    cases k <;> rfl
  | cons c t ih =>
    intro k cur
    cases k with
    | zero => rfl
    | succ m =>
      rw [show splitParasAux (c :: t) (m + 1) cur = splitParasAux t m cur from rfl,
        List.drop_succ_cons]
      exact ih m cur

lemma splitParasAux_words :
    ∀ (s cur : List Char),
      ((splitParasAux s 0 cur).map words).flatten = words (cur.reverse ++ s) := by
  suffices hstrong : ∀ (n : Nat) (s : List Char), s.length ≤ n → ∀ cur,
      ((splitParasAux s 0 cur).map words).flatten = words (cur.reverse ++ s) by
    intro s cur
    exact hstrong s.length s le_rfl cur
  intro n
  induction n with
  | zero =>
    intro s hs cur
    have hsz : s = [] := List.length_eq_zero.mp (Nat.le_zero.mp hs)
    subst hsz
    simp [splitParasAux, words_nil]
  | succ n ih =>
    intro s hs cur
    cases s with
    | nil => simp [splitParasAux, words_nil]
    | cons c t =>
      have hlt : t.length ≤ n := by
        simp only [List.length_cons] at hs
        omega
      by_cases hc : c = '\n'
      · subst hc
        rcases hj : lastNLIdx t with _ | j
        · rw [show splitParasAux ('\n' :: t) 0 cur = splitParasAux t 0 ('\n' :: cur) from by
              rw [splitParasAux]
              simp [hj]]
          rw [ih t hlt ('\n' :: cur)]
          simp
        · rw [show splitParasAux ('\n' :: t) 0 cur
              = cur.reverse :: splitParasAux t (j + 1) [] from by
              rw [splitParasAux]
              simp [hj]]
          rw [splitParasAux_skip t (j + 1) []]
          have hdlen : (t.drop (j + 1)).length ≤ n := by
            rw [List.length_drop]
            omega
          have hdecomp : ('\n' :: t : List Char)
              = ('\n' :: t.take (j + 1)) ++ t.drop (j + 1) := by
            simp
          have hws : ∀ d ∈ ('\n' :: t.take (j + 1) : List Char), isWS d = true := by
            intro d hd
            rcases List.mem_cons.mp hd with rfl | hd
            · simp [isWS, Char.isWhitespace]
            · exact lastNLIdx_ws t j hj d hd
          rw [List.map_cons, List.flatten_cons, ih _ hdlen []]
          rw [show cur.reverse ++ '\n' :: t
                = cur.reverse ++ ('\n' :: t.take (j + 1)) ++ t.drop (j + 1) by
              rw [List.append_assoc, ← hdecomp]]
          rw [words_append_ws _ hws (by simp) cur.reverse _]
          simp
      · rw [show splitParasAux (c :: t) 0 cur = splitParasAux t 0 (c :: cur) from by
            rw [splitParasAux]
            simp [hc]]
        rw [ih t hlt (c :: cur)]
        simp

lemma splitParas_words (s : List Char) :
    ((splitParas s).map words).flatten = words s := by
  simpa using splitParasAux_words s []

lemma ws_not_sentEnd (c : Char) (h : isWS c = true) : isSentEnd c = false := by
  cases hs : isSentEnd c
  · rfl
  · exfalso
    unfold isSentEnd at hs
    simp only [Bool.or_eq_true, decide_eq_true_eq] at hs
    rcases hs with (hs | hs) | hs <;> (subst hs; exact absurd h (by decide))

lemma splitSentsAux_prev_congr (p q : Char) (hpq : isSentEnd p = isSentEnd q) :
    ∀ (s : List Char) (k : Nat) (cur : List Char),
      splitSentsAux p s k cur = splitSentsAux q s k cur := by
  intro s k cur
  cases s with
  | nil => rfl
  | cons c t =>
    cases k with
    | succ m => rfl
    | zero => simp only [splitSentsAux, hpq]

lemma splitSentsAux_skip :
    ∀ (s : List Char) (k : Nat) (cur : List Char) (prev : Char),
      isSentEnd prev = false →
      (∀ c ∈ s.take k, isWS c = true) →
      splitSentsAux prev s k cur = splitSentsAux ' ' (s.drop k) 0 cur := by
  intro s
  induction s with
  | nil =>
    intro k cur prev _ _
    cases k <;> rfl
  | cons c t ih =>
    intro k cur prev hp hws
    cases k with
    | zero =>
      rw [List.drop_zero]
      have hsp : isSentEnd ' ' = false := by decide
      exact splitSentsAux_prev_congr prev ' ' (hp.trans hsp.symm) (c :: t) 0 cur
    | succ m =>
      have hc : isWS c = true := hws c (by simp)
      rw [show splitSentsAux prev (c :: t) (m + 1) cur = splitSentsAux c t m cur from rfl,
        List.drop_succ_cons]
      refine ih m cur c (ws_not_sentEnd c hc) ?_
      intro d hd
      exact hws d (by simp [List.take_succ_cons, hd])

lemma take_takeWhile_length (p : Char → Bool) (t : List Char) :
    t.take (t.takeWhile p).length = t.takeWhile p := by
  have h : (t.takeWhile p ++ t.dropWhile p).take (t.takeWhile p).length = t.takeWhile p :=
    List.take_left _ _
  rwa [List.takeWhile_append_dropWhile] at h

lemma drop_takeWhile_length (p : Char → Bool) (t : List Char) :
    t.drop (t.takeWhile p).length = t.dropWhile p := by
  have h : (t.takeWhile p ++ t.dropWhile p).drop (t.takeWhile p).length = t.dropWhile p :=
    List.drop_left _ _
  rwa [List.takeWhile_append_dropWhile] at h

lemma splitSentsAux_words :
    ∀ (prev : Char) (s cur : List Char),
      ((splitSentsAux prev s 0 cur).map words).flatten = words (cur.reverse ++ s) := by
  suffices hstrong : ∀ (n : Nat) (s : List Char), s.length ≤ n → ∀ (prev : Char) (cur : List Char),
      ((splitSentsAux prev s 0 cur).map words).flatten = words (cur.reverse ++ s) by
    intro prev s cur
    exact hstrong s.length s le_rfl prev cur
  intro n
  induction n with
  | zero =>
    intro s hs prev cur
    have hsz : s = [] := List.length_eq_zero.mp (Nat.le_zero.mp hs)
    subst hsz
    simp [splitSentsAux, words_nil]
  | succ n ih =>
    intro s hs prev cur
    cases s with
    | nil => simp [splitSentsAux, words_nil]
    | cons c t =>
      have hlt : t.length ≤ n := by
        simp only [List.length_cons] at hs
        omega
      by_cases hcond : isSentEnd prev = true ∧ isWS c = true
      · rw [show splitSentsAux prev (c :: t) 0 cur
            = cur.reverse :: splitSentsAux c t (t.takeWhile isWS).length [] from by
            rw [splitSentsAux, if_pos hcond]]
        rw [splitSentsAux_skip t (t.takeWhile isWS).length [] c
            (ws_not_sentEnd c hcond.2)
            (by
              rw [take_takeWhile_length]
              exact fun d hd => List.mem_takeWhile_imp hd),
          drop_takeWhile_length]
        have hdlen : (t.dropWhile isWS).length ≤ n :=
          le_trans ((List.dropWhile_sublist _).length_le) hlt
        have hdecomp : (c :: t : List Char)
            = (c :: t.takeWhile isWS) ++ t.dropWhile isWS := by
          simp
        have hws : ∀ d ∈ (c :: t.takeWhile isWS : List Char), isWS d = true := by
          intro d hd
          rcases List.mem_cons.mp hd with rfl | hd
          · exact hcond.2
          · exact List.mem_takeWhile_imp hd
        rw [List.map_cons, List.flatten_cons, ih _ hdlen ' ' []]
        rw [show cur.reverse ++ c :: t
              = cur.reverse ++ (c :: t.takeWhile isWS) ++ t.dropWhile isWS by
            rw [List.append_assoc, ← hdecomp]]
        rw [words_append_ws _ hws (by simp) cur.reverse _]
        simp
      · rw [show splitSentsAux prev (c :: t) 0 cur = splitSentsAux c t 0 (c :: cur) from by
            rw [splitSentsAux, if_neg hcond]]
        rw [ih t hlt c (c :: cur)]
        simp

lemma splitSents_words (s : List Char) :
    ((splitSents s).map words).flatten = words s := by
  simpa [splitSents] using splitSentsAux_words ' ' s []


lemma head?_dropWhile_not (p : Char → Bool) (l : List Char) :
    ∀ u, (l.dropWhile p).head? = some u → p u = false := by
  induction l with
  | nil => simp
  | cons c t ih =>
    intro u hu
    by_cases hc : p c = true
    · rw [List.dropWhile_cons_of_pos hc] at hu
      exact ih u hu
    · rw [List.dropWhile_cons_of_neg hc] at hu
      simp only [List.head?_cons, Option.some.injEq] at hu
      subst hu
      simpa using hc

lemma pyStrip_getLast_not_ws (s : List Char) :
    ∀ u, (pyStrip s).getLast? = some u → isWS u = false := by
  intro u hu
  unfold pyStrip at hu
  rw [List.getLast?_reverse] at hu
  exact head?_dropWhile_not isWS _ u hu

lemma getLast?_of_suffix {l' l : List Char} (h : l' <:+ l) (hne : l' ≠ []) :
    l.getLast? = l'.getLast? := by
  obtain ⟨w, rfl⟩ := h
  exact List.getLast?_append_of_ne_nil _ hne

lemma getLast?_cons_ne_nil {t : List Char} (c : Char) (h : t ≠ []) :
    (c :: t).getLast? = t.getLast? := by
  cases t with
  | nil => exact absurd rfl h
  | cons x r => exact List.getLast?_cons_cons

lemma splitSentsAux_ne_nil :
    ∀ (prev : Char) (s cur : List Char),
      (∀ u, s.getLast? = some u → isWS u = false) →
      (s = [] → cur ≠ []) →
      (isSentEnd prev = true → cur ≠ []) →
      ∀ p ∈ splitSentsAux prev s 0 cur, p ≠ [] := by
  suffices hstrong : ∀ (n : Nat) (s : List Char), s.length ≤ n →
      ∀ (prev : Char) (cur : List Char),
      (∀ u, s.getLast? = some u → isWS u = false) →
      (s = [] → cur ≠ []) →
      (isSentEnd prev = true → cur ≠ []) →
      ∀ p ∈ splitSentsAux prev s 0 cur, p ≠ [] by
    intro prev s cur
    exact hstrong s.length s le_rfl prev cur
  intro n
  induction n with
  | zero =>
    intro s hs prev cur _ h2 _ p hp
    have hsz : s = [] := List.length_eq_zero.mp (Nat.le_zero.mp hs)
    subst hsz
    rw [splitSentsAux] at hp
    simp only [List.mem_singleton] at hp
    subst hp
    simpa using h2 rfl
  | succ n ih =>
    intro s hs prev cur h1 h2 h3 p hp
    cases s with
    | nil =>
      rw [splitSentsAux] at hp
      simp only [List.mem_singleton] at hp
      subst hp
      simpa using h2 rfl
    | cons c t =>
      have hlt : t.length ≤ n := by
        simp only [List.length_cons] at hs
        omega
      by_cases hcond : isSentEnd prev = true ∧ isWS c = true
      · rw [show splitSentsAux prev (c :: t) 0 cur
            = cur.reverse :: splitSentsAux c t (t.takeWhile isWS).length [] from by
            rw [splitSentsAux, if_pos hcond]] at hp
        rw [splitSentsAux_skip t (t.takeWhile isWS).length [] c
            (ws_not_sentEnd c hcond.2)
            (by
              rw [take_takeWhile_length]
              exact fun d hd => List.mem_takeWhile_imp hd),
          drop_takeWhile_length] at hp
        have hcurne : cur ≠ [] := h3 hcond.1
        -- the remaining input is non-empty: the original last char is not whitespace
        have htne : t ≠ [] := by
          rintro rfl
          have := h1 c (by simp)
          rw [this] at hcond
          exact Bool.noConfusion hcond.2
        have hdne : t.dropWhile isWS ≠ [] := by
          intro hd
          have hall : ∀ x ∈ t, isWS x = true := by
            simpa using List.dropWhile_eq_nil_iff.mp hd
          have hvlast : (c :: t).getLast? = some (t.getLast htne) := by
            rw [getLast?_cons_ne_nil c htne, t.getLast?_eq_getLast htne]
          have hlw := h1 _ hvlast
          rw [hall _ (List.getLast_mem htne)] at hlw
          exact Bool.noConfusion hlw
        have hdlen : (t.dropWhile isWS).length ≤ n :=
          le_trans ((List.dropWhile_sublist _).length_le) hlt
        rcases List.mem_cons.mp hp with rfl | hp
        · simpa using hcurne
        · refine ih _ hdlen ' ' [] ?_ ?_ ?_ p hp
          · intro u hu
            have hsuff : t.dropWhile isWS <:+ c :: t :=
              (List.dropWhile_suffix isWS).trans (List.suffix_cons c t)
            rw [← getLast?_of_suffix hsuff hdne] at hu
            exact h1 u hu
          · intro hd
            exact absurd hd hdne
          · intro hd
            exact absurd hd (by decide)
      · rw [show splitSentsAux prev (c :: t) 0 cur = splitSentsAux c t 0 (c :: cur) from by
            rw [splitSentsAux, if_neg hcond]] at hp
        refine ih t hlt c (c :: cur) ?_ ?_ ?_ p hp
        · intro u hu
          have htne : t ≠ [] := by
            rintro rfl
            simp at hu
          rw [← getLast?_cons_ne_nil c htne] at hu
          exact h1 u hu
        · intro _
          simp
        · intro _
          simp

lemma splitSents_ne_nil (s : List Char) (hne : s ≠ [])
    (hlast : ∀ u, s.getLast? = some u → isWS u = false) :
    ∀ p ∈ splitSents s, p ≠ [] := by
  refine splitSentsAux_ne_nil ' ' s [] hlast (fun h => absurd h hne) (fun h => absurd h ?_)
  decide


lemma foldl_hom_mem {α β γ : Type} (h : α → β) (f : α → γ → α) (g : β → γ → β)
    (l : List γ) :
    (∀ a c, c ∈ l → h (f a c) = g (h a) c) →
    ∀ a, h (l.foldl f a) = l.foldl g (h a) := by
  induction l with
  | nil => intro _ a; rfl
  | cons c t ih =>
    intro hstep a
    rw [List.foldl_cons, List.foldl_cons, ← hstep a c (by simp)]
    exact ih (fun a d hd => hstep a d (by simp [hd])) (f a c)

lemma erase_annProcessSent (tok : List Char → Nat) (size pg : Nat)
    (st : AnnState) (sent : List Char) :
    eraseAnnState (annProcessSent tok size pg st sent)
      = processSent tok size pg (eraseAnnState st) sent := by
  rcases st with ⟨chunks, cur, cc, tokens, page, cid⟩
  by_cases hcond : size < tokens + tok sent ∧ cur ≠ []
  · simp [annProcessSent, processSent, eraseAnnState, mkAnnChunk, mkChunk, eraseAnn, hcond]
  · simp [annProcessSent, processSent, eraseAnnState, hcond]

lemma erase_annProcessPara (tok : List Char → Nat) (size : Nat)
    (st : AnnState) (pg_para : Nat × List Char) :
    eraseAnnState (annProcessPara tok size st pg_para)
      = processPara tok size (eraseAnnState st) pg_para := by
  rcases pg_para with ⟨pg, rawpara⟩
  rcases st with ⟨chunks, cur, cc, tokens, page, cid⟩
  by_cases hblank : pyStrip rawpara = []
  · simp [annProcessPara, processPara, eraseAnnState, hblank]
  · by_cases hbig : size < tok (pyStrip rawpara)
    · have lhs_eq : annProcessPara tok size ⟨chunks, cur, cc, tokens, page, cid⟩ (pg, rawpara)
          = (splitSents (pyStrip rawpara)).foldl (annProcessSent tok size pg)
              (if cur ≠ [] then
                { chunks := chunks ++ [mkAnnChunk (chars "\n\n") .preSplit
                    ⟨chunks, cur, cc, tokens, page, cid⟩],
                  current_chunk := [], carriedCount := 0, current_tokens := 0,
                  current_page := page, chunk_id := cid + 1 }
               else ⟨chunks, cur, cc, tokens, page, cid⟩) := by
        by_cases hne : cur ≠ [] <;> simp [annProcessPara, hblank, hbig, hne]
      have rhs_eq : processPara tok size
            (eraseAnnState ⟨chunks, cur, cc, tokens, page, cid⟩) (pg, rawpara)
          = (splitSents (pyStrip rawpara)).foldl (processSent tok size pg)
              (if cur ≠ [] then
                { chunks := chunks.map eraseAnn ++ [mkChunk (chars "\n\n")
                    (eraseAnnState ⟨chunks, cur, cc, tokens, page, cid⟩)],
                  current_chunk := [], current_tokens := 0,
                  current_page := page, chunk_id := cid + 1 }
               else eraseAnnState ⟨chunks, cur, cc, tokens, page, cid⟩) := by
        by_cases hne : cur ≠ [] <;> simp [processPara, eraseAnnState, hblank, hbig, hne]
      rw [lhs_eq, rhs_eq,
        foldl_hom_mem eraseAnnState (annProcessSent tok size pg) (processSent tok size pg) _
          (fun a c _ => erase_annProcessSent tok size pg a c)]
      congr 1
      by_cases hne : cur ≠ [] <;>
        simp [eraseAnnState, mkAnnChunk, mkChunk, eraseAnn, hne]
    · by_cases hover : size < tokens + tok (pyStrip rawpara)
      · simp [annProcessPara, processPara, eraseAnnState, mkAnnChunk, mkChunk, eraseAnn,
          hblank, hbig, hover]
      · simp [annProcessPara, processPara, eraseAnnState, hblank, hbig, hover]

lemma erase_annProcessPage (tok : List Char → Nat) (size : Nat)
    (st : AnnState) (page : Page) :
    eraseAnnState (annProcessPage tok size st page)
      = processPage tok size (eraseAnnState st) page := by
  unfold annProcessPage processPage
  exact foldl_hom_mem eraseAnnState _ _ _
    (fun a c _ => erase_annProcessPara tok size a (page.page_number, c)) st

/-- The plain chunker is the ghost-erasure of the annotated chunker: the
annotations are strictly observational. -/
theorem chunk_text_eq_erase_ann (tok : List Char → Nat) (pages : List Page)
    (chunk_size overlap : Nat) :
    chunk_text tok pages chunk_size overlap
      = (chunk_text_ann tok pages chunk_size overlap).map eraseAnn := by
  simp only [chunk_text, chunk_text_ann]
  have hinit : initChunkState = eraseAnnState initAnnState := rfl
  rw [hinit,
    ← foldl_hom_mem eraseAnnState (annProcessPage tok chunk_size) (processPage tok chunk_size)
      pages (fun a c _ => erase_annProcessPage tok chunk_size a c) initAnnState]
  set stf := pages.foldl (annProcessPage tok chunk_size) initAnnState
  rcases stf with ⟨chunks, cur, cc, tokens, page, cid⟩
  by_cases hne : cur ≠ []
  · simp [eraseAnnState, mkAnnChunk, mkChunk, eraseAnn, hne]
  · simp [eraseAnnState, hne]

/-! ## Claim theorems: access control -/

/-- C1: for every `(claims, document)` pair, the predicate denoted by the
clauses underlying `build_search_filter claims` — evaluated against the
document's `confidentiality_level` and party names, with the empty clause
list (the `None` filter) denoting the always-true predicate — decides
exactly as `can_access_document claims document`; and `build_search_filter`
is precisely the rendering of those clauses. -/
theorem filter_can_access_equiv (claims : UserClaims) (document : DocumentMetadata) :
    evalFilterClauses (filterClauses claims) document.confidentiality_level
        (document.parties.map Party.name) = can_access_document claims document
    ∧ build_search_filter claims = renderFilterClauses (filterClauses claims) := by
  constructor
  · rcases document with ⟨lvl, parties⟩
    by_cases hHP : "Hearing_Panel" ∈ claims.roles <;>
      by_cases hSt : "Staff" ∈ claims.roles <;>
      rcases hAff : claims.party_affiliation with _ | aff <;>
      cases lvl <;>
      simp [can_access_document, filterClauses, evalFilterClauses, FilterClause.eval,
        contains_eq_decide_mem, hHP, hSt, hAff] <;>
      (try (by_cases h : aff = "" <;> simp [h, FilterClause.eval, contains_eq_decide_mem]))
  · by_cases hHP : "Hearing_Panel" ∈ claims.roles <;>
      by_cases hSt : "Staff" ∈ claims.roles <;>
      rcases hAff : claims.party_affiliation with _ | aff <;>
      simp [build_search_filter, filterClauses, renderFilterClauses, FilterClause.render,
        contains_eq_decide_mem, hHP, hSt, hAff, jnStr] <;>
      (try (by_cases h : aff = "" <;> simp [h, jnStr, FilterClause.render]))

/-- C2: a confidential document is accessible exactly when the claims carry
the `Hearing_Panel` role; neither `Staff` nor a party affiliation helps. -/
theorem confidential_access_iff (claims : UserClaims) (document : DocumentMetadata)
    (h : document.confidentiality_level = .confidential) :
    (can_access_document claims document = true ↔ "Hearing_Panel" ∈ claims.roles) := by
  simp [can_access_document, h, contains_eq_decide_mem]

theorem confidential_access_iff_witness :
    can_access_document panelClaims confidentialDoc = true :=
  (confidential_access_iff panelClaims confidentialDoc rfl).mpr (by decide)

/-- C3 counterexample: claims that carry the party affiliation `""` — which
is byte-for-byte equal to the name of a roster party — are still denied
access to a `protected_a` document, because the code tests Python truthiness
(`if user_claims.party_affiliation:`) and the empty string is falsy. -/
theorem protected_a_party_match_cex :
    can_access_document emptyAffClaims emptyNameDoc = false
    ∧ (∃ a, emptyAffClaims.party_affiliation = some a
        ∧ a ∈ emptyNameDoc.parties.map Party.name)
    ∧ "Staff" ∉ emptyAffClaims.roles ∧ "Hearing_Panel" ∉ emptyAffClaims.roles :=
  ⟨by decide, ⟨"", rfl, by decide⟩, by decide, by decide⟩

/-- C3 amended: access to a `protected_a` document holds iff the claims
include `Staff` or `Hearing_Panel`, or carry a *non-empty* party affiliation
exactly equal to some roster party name. -/
theorem protected_a_access_iff (claims : UserClaims) (document : DocumentMetadata)
    (h : document.confidentiality_level = .protected_a) :
    (can_access_document claims document = true ↔
      "Staff" ∈ claims.roles ∨ "Hearing_Panel" ∈ claims.roles ∨
        ∃ a, claims.party_affiliation = some a ∧ a ≠ ""
          ∧ a ∈ document.parties.map Party.name) := by
  rcases hAff : claims.party_affiliation with _ | aff <;>
    simp [can_access_document, h, contains_eq_decide_mem, hAff]
  by_cases ha : aff = "" <;> simp [ha, contains_eq_decide_mem] <;> tauto

theorem protected_a_access_iff_witness :
    can_access_document staffClaims protectedDoc = true :=
  (protected_a_access_iff staffClaims protectedDoc rfl).mpr (Or.inl (by decide))

/-- C8 counterexample: for Hearing-Panel claims `build_search_filter`
returns `None` — the filter is absent, not "always present". -/
theorem filter_never_absent_cex : build_search_filter panelClaims = none := by rfl

/-- C8 amended: `build_search_filter` is absent exactly for claims with the
`Hearing_Panel` role (absence denoting no restriction); for claims with
neither `Staff` nor `Hearing_Panel` and no (truthy) party affiliation the
emitted clauses restrict to public documents only. -/
theorem filter_absent_iff_panel (claims : UserClaims) :
    (build_search_filter claims = none ↔ "Hearing_Panel" ∈ claims.roles)
    ∧ ("Staff" ∉ claims.roles → "Hearing_Panel" ∉ claims.roles →
        truthyStr claims.party_affiliation = false →
        ∀ lvl ps, evalFilterClauses (filterClauses claims) lvl ps = decide (lvl = .public)) := by
  constructor
  · by_cases hHP : "Hearing_Panel" ∈ claims.roles <;>
      by_cases hSt : "Staff" ∈ claims.roles <;>
      rcases hAff : claims.party_affiliation with _ | aff <;>
      simp [build_search_filter, contains_eq_decide_mem, hHP, hSt, hAff, jnStr] <;>
      (try (by_cases h : aff = "" <;> simp [h, jnStr]))
  · intro hSt hHP hAff lvl ps
    rcases hA : claims.party_affiliation with _ | aff
    · cases lvl <;>
        simp [filterClauses, evalFilterClauses, FilterClause.eval, contains_eq_decide_mem,
          hHP, hSt, hA]
    · have ha : aff = "" := by simpa [truthyStr, hA] using hAff
      subst ha
      cases lvl <;>
        simp [filterClauses, evalFilterClauses, FilterClause.eval, contains_eq_decide_mem,
          hHP, hSt, hA]

theorem filter_absent_iff_panel_witness :
    evalFilterClauses (filterClauses publicClaims) .protected_a []
      = decide ((ConfidentialityLevel.protected_a) = .public) :=
  (filter_absent_iff_panel publicClaims).2 (by decide) (by decide) (by decide)
    ConfidentialityLevel.protected_a []

/-- C10: when no demo role is resolvable, no middleware claims exist and the
environment is (or defaults to) `development`, `get_current_user` performs
the dict access `DEMO_USERS["AER_Staff"]`, whose key is not among the four
keys of `DEMO_USERS`, so the call fails with a `KeyError` rather than
returning a default Staff user; the post-credential production fallback
performs the same failing lookup. -/
theorem get_current_user_missing_key (req : AuthRequest)
    (hx : demoHeaderUser req = none) (he : demoEnvUser req = none)
    (hs : req.state_user_claims = none) :
    (req.environment_env.getD "development" = "development" →
      get_current_user req = .error (.keyError "AER_Staff"))
    ∧ (req.environment_env.getD "development" ≠ "development" → req.credentials.isSome →
      get_current_user req = .error (.keyError "AER_Staff"))
    ∧ demoUserLookup "AER_Staff" = none
    ∧ DEMO_USERS.map Prod.fst = ["Hearing_Panel", "Staff", "Intervener", "Public"] := by
  refine ⟨?_, ?_, by rfl, by rfl⟩
  · intro hEnv
    simp [get_current_user, hx, he, hs, hEnv]
    rfl
  · intro hEnv hCred
    rcases hc : req.credentials with _ | cred
    · simp [hc] at hCred
    · simp [get_current_user, hx, he, hs, hEnv, hc]
      rfl

theorem get_current_user_missing_key_witness :
    get_current_user {} = .error (.keyError "AER_Staff") :=
  (get_current_user_missing_key {} rfl rfl rfl).1 rfl

/-! ## Claim theorems: citation extraction and snippets -/

/-- C6 counterexample: on the spec's example input the extractor also
returns `"Directive 056"` (matched by the bare `Directive\s+0?\d+` pattern),
an element outside the claimed two-element set. -/
theorem citations_cex :
    chars "Directive 056" ∈ extract_regulatory_citations citeInput
    ∧ chars "Directive 056" ≠ chars "REDA s. 34"
    ∧ chars "Directive 056" ≠ chars "Directive 056 s. 2.1" :=
  ⟨by decide, by decide, by decide⟩

/-- C6 amended: on the example input the extractor returns exactly the
de-duplicated three-element set
`{"REDA s. 34", "Directive 056", "Directive 056 s. 2.1"}`. -/
theorem citations_exact :
    (extract_regulatory_citations citeInput).toFinset
      = {chars "REDA s. 34", chars "Directive 056", chars "Directive 056 s. 2.1"}
    ∧ (extract_regulatory_citations citeInput).Nodup :=
  ⟨by decide, by decide⟩

/-- C7 counterexample: content of length at most `max_length` is *not*
returned unchanged — `highlight_snippet` strips it first. -/
theorem snippet_strip_cex :
    (chars " a").length ≤ 300
    ∧ highlight_snippet (chars " a") 300 = chars "a"
    ∧ chars "a" ≠ chars " a" :=
  ⟨by decide, by decide, by decide⟩

/-- C7 amended: `highlight_snippet` operates on the whitespace-stripped
content: it returns it unchanged when within `max_length`; otherwise it cuts
the `max_length` prefix immediately after the last `". "` boundary when that
boundary lies strictly after the midpoint (no ellipsis); failing that it cuts
at the last space (when positive) and appends `"..."`; failing that it
returns the hard-truncated prefix with `"..."`. -/
theorem snippet_spec (content : List Char) (max_length : Nat) :
    ((pyStrip content).length ≤ max_length →
        highlight_snippet content max_length = pyStrip content)
    ∧ (max_length < (pyStrip content).length →
        (∃ i, chars ". " <+: ((pyStrip content).take max_length).drop i
            ∧ max_length / 2 < i
            ∧ (∀ j, chars ". " <+: ((pyStrip content).take max_length).drop j → j ≤ i)
            ∧ highlight_snippet content max_length
                = ((pyStrip content).take max_length).take (i + 1))
        ∨ ((∀ j, chars ". " <+: ((pyStrip content).take max_length).drop j →
              j ≤ max_length / 2)
            ∧ ((∃ k, chars " " <+: ((pyStrip content).take max_length).drop k
                  ∧ 0 < k
                  ∧ (∀ j, chars " " <+: ((pyStrip content).take max_length).drop j → j ≤ k)
                  ∧ highlight_snippet content max_length
                      = ((pyStrip content).take max_length).take k ++ chars "...")
              ∨ ((∀ k, chars " " <+: ((pyStrip content).take max_length).drop k → k = 0)
                  ∧ highlight_snippet content max_length
                      = (pyStrip content).take max_length ++ chars "...")))) := by
  constructor
  · intro hle
    simp [highlight_snippet, hle]
  · intro hgt
    have hnle : ¬ (pyStrip content).length ≤ max_length := by omega
    set t := (pyStrip content).take max_length with ht
    rcases hdot : rfindIdx t (chars ". ") with _ | i
    · have hno := rfindIdx_none (by decide) hdot
      right
      refine ⟨fun j hj => absurd hj (hno j), ?_⟩
      rcases hsp : rfindIdx t (chars " ") with _ | k
      · have hnos := rfindIdx_none (by decide) hsp
        right
        exact ⟨fun k hk => absurd hk (hnos k), by
          simp [highlight_snippet, hnle, ← ht, hdot, hsp]⟩
      · obtain ⟨hocc, hmax⟩ := rfindIdx_some (by decide) hsp
        by_cases hk0 : 0 < k
        · left
          exact ⟨k, hocc, hk0, hmax, by
            simp [highlight_snippet, hnle, ← ht, hdot, hsp, hk0]⟩
        · right
          have hk : k = 0 := by omega
          subst hk
          refine ⟨fun j hj => Nat.le_zero.mp (hmax j hj), by
            simp [highlight_snippet, hnle, ← ht, hdot, hsp]⟩
    · obtain ⟨hocc, hmax⟩ := rfindIdx_some (by decide) hdot
      by_cases hmid : max_length / 2 < i
      · left
        exact ⟨i, hocc, hmid, hmax, by
          simp [highlight_snippet, hnle, ← ht, hdot, hmid]⟩
      · right
        refine ⟨fun j hj => le_trans (hmax j hj) (by omega), ?_⟩
        rcases hsp : rfindIdx t (chars " ") with _ | k
        · have hnos := rfindIdx_none (by decide) hsp
          right
          exact ⟨fun k hk => absurd hk (hnos k), by
            simp [highlight_snippet, hnle, ← ht, hdot, hmid, hsp]⟩
        · obtain ⟨hocc2, hmax2⟩ := rfindIdx_some (by decide) hsp
          by_cases hk0 : 0 < k
          · left
            exact ⟨k, hocc2, hk0, hmax2, by
              simp [highlight_snippet, hnle, ← ht, hdot, hmid, hsp, hk0]⟩
          · right
            have hk : k = 0 := by omega
            subst hk
            refine ⟨fun j hj => Nat.le_zero.mp (hmax2 j hj), by
              simp [highlight_snippet, hnle, ← ht, hdot, hmid, hsp]⟩

theorem snippet_spec_witness :
    highlight_snippet (chars "hello") 300 = chars "hello" :=
  (snippet_spec (chars "hello") 300).1 (by decide)

end HearingsAI
namespace HearingsAI

lemma head?_append_left {α : Type} {l1 : List α} (l2 : List α) (h : l1 ≠ []) :
    (l1 ++ l2).head? = l1.head? := by
  cases l1 with
  | nil => exact absurd rfl h
  | cons x t => rfl

/-- Facts established when a chunk is emitted at any flush site. -/
lemma emit_ok {tok : List Char → Nat} {size : Nat} {st : AnnState}
    (hinv : StateInv tok size st) (hne : st.current_chunk ≠ []) (kind : FlushKind) :
    ChunkInv tok size (mkAnnChunk (sepFor kind) kind st)
    ∧ (∀ x ∈ st.chunks ++ [mkAnnChunk (sepFor kind) kind st], ChunkInv tok size x)
    ∧ (st.chunks ++ [mkAnnChunk (sepFor kind) kind st]).Chain' Adj
    ∧ (st.chunks ++ [mkAnnChunk (sepFor kind) kind st]).map AnnChunk.chunk_id
        = List.range (st.chunks.length + 1)
    ∧ (st.chunks ++ [mkAnnChunk (sepFor kind) kind st]).getLast?
        = some (mkAnnChunk (sepFor kind) kind st) := by
  set c := mkAnnChunk (sepFor kind) kind st with hcdef
  have hcu : c.units = st.current_chunk := rfl
  have hccc : c.carriedCount = st.carriedCount := rfl
  have hcid : c.chunk_id = st.chunk_id := rfl
  have hcinv : ChunkInv tok size c := by
    refine ⟨rfl, by rw [hcu]; exact hne, by rw [hcu]; exact hinv.unit_ne,
      by rw [hccc]; exact hinv.cc_le_one, by rw [hccc, hcu]; exact hinv.cc_le_len, ?_⟩
    rcases hinv.budget with h | h | h
    · left; rw [hccc, h]; omega
    · right; left; rw [hcu]; exact h
    · right; right; rw [hcu]; exact h
  refine ⟨hcinv, ?_, ?_, ?_, ?_⟩
  · intro x hx
    rcases List.mem_append.mp hx with hx | hx
    · exact hinv.chunksOK x hx
    · rw [List.mem_singleton.mp hx]; exact hcinv
  · rw [List.chain'_append]
    refine ⟨hinv.adj, by simp, ?_⟩
    intro x hx y hy
    simp only [List.head?_cons, Option.mem_def, Option.some.injEq] at hy
    rw [Option.mem_def] at hx
    subst hy
    refine ⟨?_, ?_, ?_⟩
    · intro hcc
      have h1 : st.carriedCount = 1 := by
        have := hinv.cc_le_one
        rw [hccc] at hcc
        omega
      obtain ⟨cl, hcl, u, hu, hune, husuf⟩ := hinv.link h1
      have hxcl : x = cl := by
        rw [hx] at hcl
        exact Option.some.inj hcl
      subst hxcl
      exact ⟨u, by rw [hcu]; exact hu, hune, husuf⟩
    · intro hkx
      have := (hinv.kindlink x hx).1 hkx
      rw [hccc, this]
      omega
    · intro hkx hlen
      have := (hinv.kindlink x hx).2 hkx hlen
      rw [hccc, this]
      omega
  · rw [List.map_append, hinv.ids, List.map_singleton, hcid, hinv.id_eq]
    rw [List.range_succ]
  · rw [List.getLast?_append_of_ne_nil _ (by simp)]
    rfl

end HearingsAI

namespace HearingsAI

lemma flatWords_singleton (u : List Char) : flatWords [u] = words u := by
  simp [flatWords]

lemma annProcessSent_sound (tok : List Char → Nat) (size pg : Nat)
    (st : AnnState) (sent : List Char)
    (hsent : sent ≠ []) (hinv : StateInv tok size st) :
    StateInv tok size (annProcessSent tok size pg st sent)
    ∧ accWords (annProcessSent tok size pg st sent) = accWords st ++ words sent := by
  by_cases hcond : size < st.current_tokens + tok sent ∧ st.current_chunk ≠ []
  · obtain ⟨hover, hne⟩ := hcond
    obtain ⟨hcinv, hallok, hchain, hids, hlast⟩ := emit_ok hinv hne .sentOverflow
    set c := mkAnnChunk (sepFor .sentOverflow) .sentOverflow st with hcdef
    have hcontent : c.content = joinSep (chars " ") st.current_chunk := rfl
    have hcu : c.units = st.current_chunk := rfl
    have hckind : c.flushKind = .sentOverflow := rfl
    by_cases h2 : 2 ≤ st.current_chunk.length
    · -- at least two units: overlap is seeded
      set ov := joinSep (chars " ") (lastTwo st.current_chunk) with hovdef
      have hovne : ov ≠ [] := by
        have hlen2 : (lastTwo st.current_chunk).length = 2 := by
          simp only [lastTwo, List.length_drop]
          omega
        obtain ⟨a, b, hab⟩ := List.length_eq_two.mp hlen2
        rw [hovdef, hab, joinSep_cons _ _ _ (by simp)]
        simp [chars]
      have hres : annProcessSent tok size pg st sent
          = { chunks := st.chunks ++ [c], current_chunk := [ov, sent],
              carriedCount := 1, current_tokens := tok ov + tok sent,
              current_page := pg, chunk_id := st.chunk_id + 1 } := by
        simp only [annProcessSent]
        rw [if_pos ⟨hover, hne⟩]
        simp [h2, hovne, ← hovdef, ← hcdef]
        rfl
      rw [hres]
      constructor
      · refine ⟨?_, by simp, by simp, ?_, ?_, ?_, ?_, hallok, hchain, ?_, ?_⟩
        · simp [sumTok]
        · intro u hu
          rcases List.mem_cons.mp hu with rfl | hu
          · exact hovne
          · rw [List.mem_singleton.mp hu]
            exact hsent
        · left; rfl
        · intro _
          refine ⟨c, by simpa using hlast, ov, by simp, hovne, ?_⟩
          rw [hcontent, hovdef]
          exact joinSep_lastTwo_suffix _ _ h2
        · intro x hx
          rw [hlast] at hx
          have hxc : c = x := Option.some.inj hx
          subst hxc
          exact ⟨fun _ => rfl, fun _ _ => rfl⟩
        · simp [hinv.id_eq]
        · rw [hids]
          simp
      · simp only [accWords]
        rw [List.map_append, List.flatten_append]
        have hcfresh : flatWords c.fresh
            = flatWords (st.current_chunk.drop st.carriedCount) := rfl
        simp [hcfresh, flatWords_singleton, List.append_assoc]
    · -- fewer than two units: no overlap is seeded
      have hres : annProcessSent tok size pg st sent
          = { chunks := st.chunks ++ [c], current_chunk := [sent],
              carriedCount := 0, current_tokens := 0 + tok sent,
              current_page := pg, chunk_id := st.chunk_id + 1 } := by
        simp only [annProcessSent]
        rw [if_pos ⟨hover, hne⟩]
        simp [h2, ← hcdef]
        rfl
      rw [hres]
      constructor
      · refine ⟨?_, by simp, by simp, ?_, ?_, ?_, ?_, hallok, hchain, ?_, ?_⟩
        · simp [sumTok]
        · intro u hu
          rw [List.mem_singleton.mp hu]
          exact hsent
        · right; left; simp
        · intro h1
          exact absurd h1 (by simp)
        · intro x hx
          rw [hlast] at hx
          have hxc : c = x := Option.some.inj hx
          subst hxc
          refine ⟨?_, ?_⟩
          · intro hk
            exact absurd (hckind.symm.trans hk) (by simp)
          · intro hk hlen
            rw [hcu] at hlen
            exact absurd hlen h2
        · simp [hinv.id_eq]
        · rw [hids]
          simp
      · simp only [accWords]
        rw [List.map_append, List.flatten_append]
        have hcfresh : flatWords c.fresh
            = flatWords (st.current_chunk.drop st.carriedCount) := rfl
        simp [hcfresh, flatWords_singleton, List.append_assoc]
  · have hres : annProcessSent tok size pg st sent
        = { chunks := st.chunks, current_chunk := st.current_chunk ++ [sent],
            carriedCount := st.carriedCount,
            current_tokens := st.current_tokens + tok sent,
            current_page := pg, chunk_id := st.chunk_id } := by
      simp only [annProcessSent]
      rw [if_neg hcond]
    rw [hres]
    constructor
    · refine ⟨?_, hinv.cc_le_one, ?_, ?_, ?_, ?_, ?_, hinv.chunksOK, hinv.adj,
        hinv.id_eq, hinv.ids⟩
      · rw [hinv.tokens_eq]
        simp [sumTok]
      · have := hinv.cc_le_len
        simp only [List.length_append, List.length_singleton]
        omega
      · intro u hu
        rcases List.mem_append.mp hu with hu | hu
        · exact hinv.unit_ne u hu
        · rw [List.mem_singleton.mp hu]
          exact hsent
      · rcases not_and_or.mp hcond with hA | hB
        · right; right
          have hs1 : sumTok tok [sent] = tok sent := by simp [sumTok]
          rw [sumTok_append, ← hinv.tokens_eq, hs1]
          omega
        · right; left
          have hc : st.current_chunk = [] := not_ne_iff.mp hB
          simp [hc]
      · intro h1
        obtain ⟨cl, hcl, u, hu, hune, hsuf⟩ := hinv.link h1
        have hcurne : st.current_chunk ≠ [] := by
          intro hc
          have := hinv.cc_le_len
          rw [hc, h1] at this
          simp at this
        exact ⟨cl, hcl, u, by rw [head?_append_left _ hcurne]; exact hu, hune, hsuf⟩
      · intro x hx
        exact hinv.kindlink x hx
    · simp only [accWords]
      rw [List.drop_append_of_le_length hinv.cc_le_len, flatWords_append]
      simp [flatWords_singleton, List.append_assoc]

end HearingsAI

namespace HearingsAI

lemma foldl_inv_acc {α γ : Type} (f : α → γ → α) (P : α → Prop)
    (m : α → List (List Char)) (g : γ → List (List Char)) (l : List γ)
    (hstep : ∀ a c, c ∈ l → P a → P (f a c) ∧ m (f a c) = m a ++ g c) :
    ∀ a, P a → P (l.foldl f a) ∧ m (l.foldl f a) = m a ++ (l.map g).flatten := by
  induction l with
  | nil => intro a hP; exact ⟨hP, by simp⟩
  | cons c t ih =>
    intro a hP
    obtain ⟨hP1, hm1⟩ := hstep a c (by simp) hP
    obtain ⟨hP2, hm2⟩ := ih (fun a d hd hPa => hstep a d (by simp [hd]) hPa) (f a c) hP1
    refine ⟨hP2, ?_⟩
    rw [List.foldl_cons, hm2, hm1]
    simp

lemma annProcessPara_sound (tok : List Char → Nat) (size : Nat)
    (st : AnnState) (pg : Nat) (rawpara : List Char)
    (hinv : StateInv tok size st) :
    StateInv tok size (annProcessPara tok size st (pg, rawpara))
    ∧ accWords (annProcessPara tok size st (pg, rawpara))
        = accWords st ++ words (pyStrip rawpara) := by
  by_cases hblank : pyStrip rawpara = []
  · have hres : annProcessPara tok size st (pg, rawpara) = st := by
      simp [annProcessPara, hblank]
    rw [hres, hblank, words_nil]
    exact ⟨hinv, by simp⟩
  · by_cases hbig : size < tok (pyStrip rawpara)
    · -- oversized paragraph: pre-flush then sentence loop
      have hstep1 : ∃ st1, (annProcessPara tok size st (pg, rawpara)
            = (splitSents (pyStrip rawpara)).foldl (annProcessSent tok size pg) st1)
          ∧ StateInv tok size st1 ∧ accWords st1 = accWords st := by
        by_cases hne : st.current_chunk ≠ []
        · obtain ⟨hcinv, hallok, hchain, hids, hlast⟩ := emit_ok hinv hne .preSplit
          set c := mkAnnChunk (sepFor .preSplit) .preSplit st with hcdef
          refine ⟨{ chunks := st.chunks ++ [c], current_chunk := [],
                    carriedCount := 0, current_tokens := 0,
                    current_page := st.current_page, chunk_id := st.chunk_id + 1 },
            ?_, ?_, ?_⟩
          · simp only [annProcessPara]
            rw [if_neg (by simpa using hblank), if_pos hbig, if_pos hne]
            rfl
          · refine ⟨by simp [sumTok], by simp, by simp, by simp, ?_, ?_, ?_,
              hallok, hchain, ?_, ?_⟩
            · right; left; simp
            · intro h1
              exact absurd h1 (by simp)
            · intro x hx
              rw [hlast] at hx
              have hxc : c = x := Option.some.inj hx
              subst hxc
              have hckind : c.flushKind = .preSplit := rfl
              refine ⟨?_, ?_⟩
              · intro hk
                exact absurd (hckind.symm.trans hk) (by simp)
              · intro hk
                exact absurd (hckind.symm.trans hk) (by simp)
            · simp [hinv.id_eq]
            · rw [hids]
              simp
          · simp only [accWords]
            rw [List.map_append, List.flatten_append]
            have hcfresh : flatWords c.fresh
                = flatWords (st.current_chunk.drop st.carriedCount) := rfl
            have hnil : flatWords ([] : List (List Char)) = [] := rfl
            simp [hcfresh, hnil, List.append_assoc]
        · refine ⟨st, ?_, hinv, rfl⟩
          simp only [annProcessPara]
          rw [if_neg (by simpa using hblank), if_pos hbig, if_neg hne]
      obtain ⟨st1, hres, hinv1, hacc1⟩ := hstep1
      rw [hres]
      have hsents := splitSents_ne_nil (pyStrip rawpara) hblank
        (pyStrip_getLast_not_ws rawpara)
      obtain ⟨hinvf, haccf⟩ := foldl_inv_acc (annProcessSent tok size pg)
        (StateInv tok size) accWords words (splitSents (pyStrip rawpara))
        (fun a s hs hP => annProcessSent_sound tok size pg a s (hsents s hs) hP)
        st1 hinv1
      refine ⟨hinvf, ?_⟩
      rw [haccf, hacc1, splitSents_words]
    · by_cases hover : size < st.current_tokens + tok (pyStrip rawpara)
      · -- paragraph overflow: flush and seed the last paragraph unit
        have hne : st.current_chunk ≠ [] := by
          intro hc
          rw [hinv.tokens_eq, hc] at hover
          simp [sumTok] at hover
          omega
        obtain ⟨hcinv, hallok, hchain, hids, hlast⟩ := emit_ok hinv hne .paraOverflow
        set c := mkAnnChunk (sepFor .paraOverflow) .paraOverflow st with hcdef
        have hckind : c.flushKind = .paraOverflow := rfl
        have hcontent : c.content = joinSep (chars "\n\n") st.current_chunk := rfl
        obtain ⟨u, hu⟩ : ∃ u, st.current_chunk.getLast? = some u :=
          ⟨st.current_chunk.getLast hne, st.current_chunk.getLast?_eq_getLast hne⟩
        have hgl : st.current_chunk.getLast hne = u :=
          Option.some.inj ((st.current_chunk.getLast?_eq_getLast hne).symm.trans hu)
        have humem : u ∈ st.current_chunk := by
          rw [← hgl]
          exact List.getLast_mem hne
        have hres : annProcessPara tok size st (pg, rawpara)
            = { chunks := st.chunks ++ [c],
                current_chunk := [u, pyStrip rawpara],
                carriedCount := 1,
                current_tokens := (([u, pyStrip rawpara]).map tok).sum,
                current_page := pg, chunk_id := st.chunk_id + 1 } := by
          simp only [annProcessPara]
          rw [if_neg (by simpa using hblank), if_neg hbig, if_pos hover, hu]
          rfl
        rw [hres]
        constructor
        · refine ⟨by simp [sumTok], by simp, by simp, ?_, ?_, ?_, ?_,
            hallok, hchain, ?_, ?_⟩
          · intro x hx
            rcases List.mem_cons.mp hx with rfl | hx
            · exact hinv.unit_ne x humem
            · rw [List.mem_singleton.mp hx]
              exact hblank
          · left; rfl
          · intro _
            refine ⟨c, by simpa using hlast, u, by simp, hinv.unit_ne u humem, ?_⟩
            rw [hcontent, ← hgl]
            exact getLast_suffix_joinSep (chars "\n\n") st.current_chunk hne
          · intro x hx
            rw [hlast] at hx
            have hxc : c = x := Option.some.inj hx
            subst hxc
            exact ⟨fun _ => rfl, fun _ _ => rfl⟩
          · simp [hinv.id_eq]
          · rw [hids]
            simp
        · simp only [accWords]
          rw [List.map_append, List.flatten_append]
          have hcfresh : flatWords c.fresh
              = flatWords (st.current_chunk.drop st.carriedCount) := rfl
          simp [hcfresh, flatWords_singleton, List.append_assoc]
      · -- append the paragraph to the pending chunk
        have hres : annProcessPara tok size st (pg, rawpara)
            = { chunks := st.chunks,
                current_chunk := st.current_chunk ++ [pyStrip rawpara],
                carriedCount := st.carriedCount,
                current_tokens := st.current_tokens + tok (pyStrip rawpara),
                current_page := pg, chunk_id := st.chunk_id } := by
          simp only [annProcessPara]
          rw [if_neg (by simpa using hblank), if_neg hbig, if_neg hover]
        rw [hres]
        constructor
        · refine ⟨?_, hinv.cc_le_one, ?_, ?_, ?_, ?_, ?_, hinv.chunksOK, hinv.adj,
            hinv.id_eq, hinv.ids⟩
          · rw [hinv.tokens_eq]
            simp [sumTok]
          · have := hinv.cc_le_len
            simp only [List.length_append, List.length_singleton]
            omega
          · intro x hx
            rcases List.mem_append.mp hx with hx | hx
            · exact hinv.unit_ne x hx
            · rw [List.mem_singleton.mp hx]
              exact hblank
          · right; right
            have hs1 : sumTok tok [pyStrip rawpara] = tok (pyStrip rawpara) := by
              simp [sumTok]
            rw [sumTok_append, ← hinv.tokens_eq, hs1]
            omega
          · intro h1
            obtain ⟨cl, hcl, v, hv, hvne, hsuf⟩ := hinv.link h1
            have hcurne : st.current_chunk ≠ [] := by
              intro hc
              have := hinv.cc_le_len
              rw [hc, h1] at this
              simp at this
            exact ⟨cl, hcl, v, by rw [head?_append_left _ hcurne]; exact hv, hvne, hsuf⟩
          · intro x hx
            exact hinv.kindlink x hx
        · simp only [accWords]
          rw [List.drop_append_of_le_length hinv.cc_le_len, flatWords_append]
          simp [flatWords_singleton, List.append_assoc]

end HearingsAI

namespace HearingsAI

lemma annProcessPage_sound (tok : List Char → Nat) (size : Nat)
    (st : AnnState) (page : Page) (hinv : StateInv tok size st) :
    StateInv tok size (annProcessPage tok size st page)
    ∧ accWords (annProcessPage tok size st page) = accWords st ++ words page.text := by
  obtain ⟨hinvf, haccf⟩ := foldl_inv_acc
    (fun s para => annProcessPara tok size s (page.page_number, para))
    (StateInv tok size) accWords (fun para => words (pyStrip para)) (splitParas page.text)
    (fun a p _ hP => annProcessPara_sound tok size a page.page_number p hP) st hinv
  refine ⟨hinvf, ?_⟩
  rw [show annProcessPage tok size st page
      = (splitParas page.text).foldl
          (fun s para => annProcessPara tok size s (page.page_number, para)) st from rfl]
  rw [haccf]
  congr 1
  have hmap : (splitParas page.text).map (fun para => words (pyStrip para))
      = (splitParas page.text).map words :=
    List.map_congr_left (fun p _ => words_pyStrip p)
  rw [hmap, splitParas_words]

lemma initAnnState_inv (tok : List Char → Nat) (size : Nat) :
    StateInv tok size initAnnState := by
  refine ⟨rfl, by simp [initAnnState], by simp [initAnnState], by simp [initAnnState],
    ?_, ?_, ?_, by simp [initAnnState], by simp [initAnnState],
    by simp [initAnnState], by simp [initAnnState]⟩
  · right; left; simp [initAnnState]
  · intro h1
    exact absurd h1 (by simp [initAnnState])
  · intro x hx
    simp [initAnnState] at hx

/-- Everything the chunker claims need about a full annotated run. -/
lemma chunk_text_ann_spec (tok : List Char → Nat) (pages : List Page) (size ov : Nat) :
    (∀ c ∈ chunk_text_ann tok pages size ov, ChunkInv tok size c)
    ∧ (chunk_text_ann tok pages size ov).Chain' Adj
    ∧ (chunk_text_ann tok pages size ov).map AnnChunk.chunk_id
        = List.range (chunk_text_ann tok pages size ov).length
    ∧ ((chunk_text_ann tok pages size ov).map (fun c => flatWords c.fresh)).flatten
        = (pages.map (fun p => words p.text)).flatten := by
  obtain ⟨hinvf, haccf⟩ := foldl_inv_acc (annProcessPage tok size) (StateInv tok size)
    accWords (fun p => words p.text) pages
    (fun a p _ hP => annProcessPage_sound tok size a p hP)
    initAnnState (initAnnState_inv tok size)
  set stf := pages.foldl (annProcessPage tok size) initAnnState with hstf
  have hacc0 : accWords initAnnState = [] := rfl
  rw [hacc0, List.nil_append] at haccf
  have hbody : chunk_text_ann tok pages size ov
      = (if stf.current_chunk ≠ []
          then stf.chunks ++ [mkAnnChunk (chars "\n\n") .finalFlush stf]
          else stf.chunks) := by
    simp only [chunk_text_ann, hstf]
  by_cases hne : stf.current_chunk ≠ []
  · obtain ⟨hcinv, hallok, hchain, hids, hlast⟩ := emit_ok hinvf hne .finalFlush
    set c := mkAnnChunk (sepFor .finalFlush) .finalFlush stf with hcdef
    have hc2 : mkAnnChunk (chars "\n\n") FlushKind.finalFlush stf = c := rfl
    rw [hbody, if_pos hne, hc2]
    refine ⟨hallok, hchain, ?_, ?_⟩
    · rw [hids]
      simp
    · rw [List.map_append, List.flatten_append, ← haccf]
      simp only [accWords]
      have hcfresh : flatWords c.fresh
          = flatWords (stf.current_chunk.drop stf.carriedCount) := rfl
      simp [hcfresh]
  · rw [hbody, if_neg hne]
    have hcur : stf.current_chunk = [] := not_ne_iff.mp hne
    refine ⟨hinvf.chunksOK, hinvf.adj, ?_, ?_⟩
    · rw [hinvf.ids]
    · rw [← haccf]
      simp only [accWords]
      simp [hcur]
      rfl

end HearingsAI

namespace HearingsAI

lemma wcTok_add_space : ∀ a b : List Char, wcTok (a ++ chars " " ++ b) = wcTok a + wcTok b := by
  intro a b
  unfold wcTok
  rw [words_append_ws (chars " ") (by decide) (by decide) a b, List.length_append]

lemma wcTok_add_nl : ∀ a b : List Char, wcTok (a ++ chars "\n\n" ++ b) = wcTok a + wcTok b := by
  intro a b
  unfold wcTok
  rw [words_append_ws (chars "\n\n") (by decide) (by decide) a b, List.length_append]

/-- C4 counterexample: with budget 3 the two-paragraph page "a b\n\nc d"
produces a second chunk whose content is the whole text — both paragraphs
plus the carried overlap paragraph — and that content exceeds the budget
even though each paragraph alone fits; so a chunk that begins with an
overlap fragment is *not* kept within `chunk_size`, contradicting the
claim's "this includes chunks that begin with an overlap fragment". -/
theorem chunk_budget_cex :
    chunk_text wcTok [⟨1, chars "a b\n\nc d"⟩] 3 1
      = [⟨0, chars "a b", 1, none, []⟩,
         ⟨1, chars "a b\n\nc d", 1, none, []⟩]
    ∧ wcTok (chars "a b") ≤ 3 ∧ wcTok (chars "c d") ≤ 3
    ∧ chars "a b\n\nc d" = chars "a b" ++ chars "\n\n" ++ chars "c d"
    ∧ ¬ (wcTok (chars "a b\n\nc d") ≤ 3) :=
  ⟨by decide, by decide, by decide, by decide, by decide⟩

/-- C4 amended: for any additive tokenizer, every chunk the chunker emits
either (a) starts with a non-empty carried overlap unit (the unbudgeted
case the code's seeding produces), or (b) has content within `chunk_size`,
or (c) is a single unit that alone exceeds `chunk_size` — i.e. the budget
invariant holds except for chunks that were seeded with overlap. -/
theorem chunk_budget_except_overlap (tok : List Char → Nat) (pages : List Page)
    (chunk_size overlap : Nat)
    (hsp : ∀ a b : List Char, tok (a ++ chars " " ++ b) = tok a + tok b)
    (hnl : ∀ a b : List Char, tok (a ++ chars "\n\n" ++ b) = tok a + tok b) :
    ∀ c ∈ chunk_text_ann tok pages chunk_size overlap,
      (∃ u, 0 < c.carriedCount ∧ c.units.head? = some u ∧ u ≠ [] ∧ u <+: c.content)
      ∨ tok c.content ≤ chunk_size
      ∨ (∃ u, c.units = [u] ∧ c.content = u ∧ chunk_size < tok u) := by
  intro c hc
  obtain ⟨hok, _, _, _⟩ := chunk_text_ann_spec tok pages chunk_size overlap
  have hcinv := hok c hc
  have hadd : ∀ a b, tok (a ++ sepFor c.flushKind ++ b) = tok a + tok b := by
    cases c.flushKind
    · exact hnl
    · exact hsp
    · exact hnl
    · exact hnl
  obtain ⟨u, t, hunits⟩ : ∃ u t, c.units = u :: t := by
    cases hus : c.units with
    | nil => exact absurd hus hcinv.units_ne
    | cons x r => exact ⟨x, r, rfl⟩
  rcases hcinv.budget with hcc | hlen | hsum
  · left
    refine ⟨u, hcc, by rw [hunits]; rfl, hcinv.unit_ne u (by rw [hunits]; simp), ?_⟩
    rw [hcinv.content_eq, hunits]
    exact head_prefix_joinSep _ _ _
  · have ht : t = [] := by
      rw [hunits] at hlen
      simpa using hlen
    subst ht
    have hcont : c.content = u := by
      rw [hcinv.content_eq, hunits]
      rfl
    by_cases hle : tok u ≤ chunk_size
    · right; left
      rw [hcont]
      exact hle
    · right; right
      exact ⟨u, hunits, hcont, by omega⟩
  · right; left
    rw [hcinv.content_eq, tok_joinSep tok _ hadd c.units hcinv.units_ne]
    exact hsum

theorem chunk_budget_except_overlap_witness :
    (∃ u, 0 < (⟨0, chars "a b", 1, none, [], [chars "a b"], 0,
          .paraOverflow⟩ : AnnChunk).carriedCount
        ∧ (⟨0, chars "a b", 1, none, [], [chars "a b"], 0,
          .paraOverflow⟩ : AnnChunk).units.head? = some u ∧ u ≠ []
        ∧ u <+: (⟨0, chars "a b", 1, none, [], [chars "a b"], 0,
          .paraOverflow⟩ : AnnChunk).content)
    ∨ wcTok (⟨0, chars "a b", 1, none, [], [chars "a b"], 0,
          .paraOverflow⟩ : AnnChunk).content ≤ 3
    ∨ (∃ u, (⟨0, chars "a b", 1, none, [], [chars "a b"], 0,
          .paraOverflow⟩ : AnnChunk).units = [u]
        ∧ (⟨0, chars "a b", 1, none, [], [chars "a b"], 0,
          .paraOverflow⟩ : AnnChunk).content = u ∧ 3 < wcTok u) :=
  chunk_budget_except_overlap wcTok [⟨1, chars "a b\n\nc d"⟩] 3 1
    wcTok_add_space wcTok_add_nl _ (by decide)

/-- C5 counterexample: on the single page "ab. cd." with budget 1 the run
pre-splits a sentence flush, after which the code seeds no overlap: the
second chunk "cd." shares no non-empty fragment with the end of the first
chunk "ab.", and no section boundary was crossed — so chunk i>0 does not
always begin with a fragment carried from chunk i-1. -/
theorem chunk_overlap_cex :
    chunk_text wcTok [⟨1, chars "ab. cd."⟩] 1 1
      = [⟨0, chars "ab.", 1, none, []⟩, ⟨1, chars "cd.", 1, none, []⟩]
    ∧ (∀ n, n < (chars "cd.").length →
        ¬ ((chars "cd.").take (n + 1) <:+ chars "ab.")) :=
  ⟨by decide, by decide⟩

/-- C5 amended: overlap is carried exactly at the flush sites whose code
path seeds it — when chunk i was flushed by a paragraph overflow, or by a
sentence overflow with at least two accumulated units, chunk i+1 begins
with a non-empty unit-granular fragment that is verbatim a suffix of
chunk i's content. -/
theorem chunk_overlap_carried (tok : List Char → Nat) (pages : List Page)
    (chunk_size overlap : Nat) (i : Nat)
    (hi : i + 1 < (chunk_text_ann tok pages chunk_size overlap).length)
    (hkind : ((chunk_text_ann tok pages chunk_size overlap).get ⟨i, by omega⟩).flushKind
          = .paraOverflow
        ∨ (((chunk_text_ann tok pages chunk_size overlap).get ⟨i, by omega⟩).flushKind
            = .sentOverflow
          ∧ 2 ≤ ((chunk_text_ann tok pages chunk_size overlap).get
              ⟨i, by omega⟩).units.length)) :
    ∃ f, f ≠ []
      ∧ f <+: ((chunk_text_ann tok pages chunk_size overlap).get ⟨i + 1, hi⟩).content
      ∧ f <:+ ((chunk_text_ann tok pages chunk_size overlap).get ⟨i, by omega⟩).content := by
  obtain ⟨hok, hadj, _, _⟩ := chunk_text_ann_spec tok pages chunk_size overlap
  have hAdj := List.chain'_iff_get.mp hadj i (by omega)
  have hbcc : 0 < ((chunk_text_ann tok pages chunk_size overlap).get ⟨i + 1, hi⟩).carriedCount := by
    rcases hkind with hk | ⟨hk, hlen⟩
    · exact hAdj.2.1 hk
    · exact hAdj.2.2 hk hlen
  obtain ⟨u, hu, hune, husuf⟩ := hAdj.1 hbcc
  have hbinv := hok _ (List.get_mem (chunk_text_ann tok pages chunk_size overlap) (i + 1) hi)
  refine ⟨u, hune, ?_, husuf⟩
  rw [hbinv.content_eq]
  obtain ⟨t, hbu⟩ : ∃ t,
      ((chunk_text_ann tok pages chunk_size overlap).get ⟨i + 1, hi⟩).units = u :: t := by
    cases hus : ((chunk_text_ann tok pages chunk_size overlap).get ⟨i + 1, hi⟩).units with
    | nil =>
      rw [hus] at hu
      cases hu
    | cons x r =>
      rw [hus] at hu
      exact ⟨r, by rw [Option.some.inj hu]⟩
  rw [hbu]
  exact head_prefix_joinSep _ _ _

theorem chunk_overlap_carried_witness :
    ∃ f, f ≠ []
      ∧ f <+: ((chunk_text_ann wcTok [⟨1, chars "a b\n\nc d"⟩] 3 1).get ⟨0 + 1, by decide⟩).content
      ∧ f <:+ ((chunk_text_ann wcTok [⟨1, chars "a b\n\nc d"⟩] 3 1).get ⟨0, by decide⟩).content :=
  chunk_overlap_carried wcTok [⟨1, chars "a b\n\nc d"⟩] 3 1 0 (by decide) (Or.inl (by decide))

/-- C9: reconstruction. For every page list, tokenizer and parameters, the
chunks in `chunk_id` order (ids are exactly `0, 1, …`), after removing each
chunk's declared carried-overlap fragment, concatenate — modulo whitespace
normalization (`words`) — to exactly the source pages' text: the fresh
words of the chunks, in order, are the words of the pages, and each
chunk's content normalizes to its carried words followed by its fresh
words. -/
theorem chunk_reconstruction (tok : List Char → Nat) (pages : List Page)
    (chunk_size overlap : Nat) :
    chunk_text tok pages chunk_size overlap
        = (chunk_text_ann tok pages chunk_size overlap).map eraseAnn
    ∧ ((chunk_text_ann tok pages chunk_size overlap).map
          (fun c => flatWords c.fresh)).flatten
        = (pages.map (fun p => words p.text)).flatten
    ∧ (∀ c ∈ chunk_text_ann tok pages chunk_size overlap,
        words c.content = flatWords c.carried ++ flatWords c.fresh)
    ∧ (chunk_text_ann tok pages chunk_size overlap).map AnnChunk.chunk_id
        = List.range (chunk_text_ann tok pages chunk_size overlap).length := by
  obtain ⟨hok, _, hids, hacc⟩ := chunk_text_ann_spec tok pages chunk_size overlap
  refine ⟨chunk_text_eq_erase_ann tok pages chunk_size overlap, hacc, ?_, hids⟩
  intro c hc
  have hcinv := hok c hc
  have hsep_ws : ∀ ch ∈ sepFor c.flushKind, isWS ch = true := by
    cases c.flushKind <;> decide
  have hsep_ne : sepFor c.flushKind ≠ [] := by
    cases c.flushKind <;> decide
  rw [hcinv.content_eq, words_joinSep (sepFor c.flushKind) hsep_ws hsep_ne c.units,
    AnnChunk.carried, AnnChunk.fresh, ← flatWords_append, List.take_append_drop]

end HearingsAI
